import Mathlib

/-!
Verification development for the orderbook matching engine of the
vyorkin/crypto-exchange repository (src/orderbook/orderbook.go and the
engine-facing parts of src/main.go).

Shallow embedding conventions:
* Go float64 prices, sizes and volumes are modelled as exact integers: the
  engine only adds, subtracts, takes minima of and compares these
  quantities, so the idealization drops float rounding, not behavior.
* Go heap pointers to Order values are modelled by an explicit store
  (a list of Order records keyed by the ID field); mutation of an order
  through a pointer becomes an update of the store entry with that ID.
* The Limit back-pointer of an order is modelled by the price of the level
  it points to (per side, prices of live levels are unique, which the
  development proves as an invariant); a nil pointer is modelled by none.
* The AskLimits and BidLimits price maps of the Go Orderbook are kept in
  lockstep with the asks and bids slices by every code path
  (PlaceLimitOrder inserts into both, DeleteLimit deletes from both), so
  a map lookup is modelled as a price lookup in the corresponding slice.
* uuid.New() together with time.Now().UnixNano() are modelled by a single
  per-book counter: each constructed order receives the counter value as
  both its ID and its (strictly increasing) arrival timestamp.
* log.Panicf and nil-pointer dereferences terminate the process in Go;
  they are modelled by dedicated result constructors carrying no
  successor state.
-/

namespace OB

/-- Models the Go Order struct: ID, Size (remaining), Bid side flag,
Timestamp, and the Limit back-pointer (as the price of the level,
none for nil). -/
structure Order where
  ID : Nat
  Size : ℤ
  Bid : Bool
  Timestamp : Nat
  LimitPrice : Option ℤ
deriving DecidableEq, Repr

/-- The store of all Order values ever allocated, keyed by ID. -/
abbrev Heap := List Order

/-- Dereference the pointer to the order with the given ID
(a dummy record stands for memory that was never allocated). -/
def heapGet : Heap → Nat → Order
  | [], _ => ⟨0, 0, false, 0, none⟩
  | o :: h, oid => if o.ID = oid then o else heapGet h oid

/-- Mutate the order with the given ID in the store. -/
def heapSet : Heap → Nat → Order → Heap
  | [], _, _ => []
  | o :: h, oid, v => if o.ID = oid then v :: heapSet h oid v else o :: heapSet h oid v

/-- The ID is allocated in the store. -/
def heapHas (h : Heap) (oid : Nat) : Prop := ∃ o ∈ h, o.ID = oid

/-- Models the Go Limit struct: Price, the Orders slice (as the list of
order IDs in slice order), and the cached TotalVolume. -/
structure Limit where
  Price : ℤ
  Orders : List Nat
  TotalVolume : ℤ
deriving DecidableEq, Repr

/-- Models one Match record: the ask and bid participants (by ID),
the size filled and the price. -/
structure Match where
  Ask : Nat
  Bid : Nat
  SizeFilled : ℤ
  Price : ℤ
deriving DecidableEq, Repr

/-- Models Order.IsFilled: remaining size equals zero. -/
def Order.IsFilled (o : Order) : Bool := decide (o.Size = 0)

/-- Sum of the remaining sizes of the given order IDs under a store. -/
def sumSizes (h : Heap) (os : List Nat) : ℤ := (os.map fun i => (heapGet h i).Size).sum

/-- Models Limit.AddOrder: set the back-pointer, append to the Orders
slice, add the order size to TotalVolume. -/
def Limit.AddOrder (l : Limit) (oid : Nat) (h : Heap) : Limit × Heap :=
  let o := heapGet h oid
  let h1 := heapSet h oid { o with LimitPrice := some l.Price }
  ({ l with Orders := l.Orders ++ [oid], TotalVolume := l.TotalVolume + o.Size }, h1)

/-- Models the Go swap-remove loop pattern (used by Limit.DeleteOrder and
Orderbook.DeleteLimit): the first element satisfying the predicate is
overwritten with the last element and the slice is truncated by one. -/
def goFindIdx (p : α → Bool) : List α → Option Nat
  | [] => none
  | x :: xs => if p x then some 0 else (goFindIdx p xs).map (· + 1)

/-- Go swap-remove of the first element matching the predicate. -/
def goSwapRemove (p : α → Bool) (xs : List α) : List α :=
  match goFindIdx p xs, xs.getLast? with
  | some i, some z => (xs.set i z).dropLast
  | _, _ => xs

/-- Insert an order ID into a list sorted by strictly descending
timestamp (the Orders.Less comparator of the source compares with
Timestamp i greater than Timestamp j). -/
def insertTsDesc (h : Heap) (i : Nat) : List Nat → List Nat
  | [] => [i]
  | j :: js =>
    if (heapGet h j).Timestamp < (heapGet h i).Timestamp then i :: j :: js
    else j :: insertTsDesc h i js

/-- Models sort.Sort(l.Orders): sorts by descending timestamp. With the
pairwise distinct timestamps maintained by the engine this is the unique
result of the unstable Go sort. -/
def sortOrdersDesc (h : Heap) : List Nat → List Nat
  | [] => []
  | i :: is => insertTsDesc h i (sortOrdersDesc h is)

/-- Models Limit.DeleteOrder: swap-remove from the Orders slice, clear
the back-pointer, subtract the order size from TotalVolume, then re-sort
the remaining orders by descending timestamp. -/
def Limit.DeleteOrder (l : Limit) (oid : Nat) (h : Heap) : Limit × Heap :=
  let os1 := goSwapRemove (fun x => x == oid) l.Orders
  let o := heapGet h oid
  let h1 := heapSet h oid { o with LimitPrice := none }
  let os2 := sortOrdersDesc h1 os1
  ({ l with Orders := os2, TotalVolume := l.TotalVolume - o.Size }, h1)

/-- Models Limit.fillOrder with a the resting order and b the incoming
order: the order with the larger remaining size is reduced by the size of
the other, which drops to zero; the match is labelled by each side. -/
def Limit.fillOrder (l : Limit) (aId bId : Nat) (h : Heap) : Match × Heap :=
  let a := heapGet h aId
  let b := heapGet h bId
  let askId := if a.Bid then bId else aId
  let bidId := if a.Bid then aId else bId
  if b.Size ≤ a.Size then
    (⟨askId, bidId, b.Size, l.Price⟩,
     heapSet (heapSet h aId { a with Size := a.Size - b.Size }) bId { b with Size := 0 })
  else
    (⟨askId, bidId, a.Size, l.Price⟩,
     heapSet (heapSet h bId { b with Size := b.Size - a.Size }) aId { a with Size := 0 })

/-- The loop body of Limit.Fill: walk the Orders slice, fill against each
resting order, subtract each SizeFilled from the running TotalVolume,
record resting orders that became filled, and stop once the incoming
order is filled. Returns (matches, filledOrders, store, TotalVolume). -/
def fillLoop (l : Limit) (oid : Nat) : List Nat → Heap → ℤ → List Match × List Nat × Heap × ℤ
  | [], h, v => ([], [], h, v)
  | aId :: rest, h, v =>
    let mh := l.fillOrder aId oid h
    let v1 := v - mh.1.SizeFilled
    let fs0 : List Nat := if (heapGet mh.2 aId).IsFilled then [aId] else []
    if (heapGet mh.2 oid).IsFilled then
      ([mh.1], fs0, mh.2, v1)
    else
      let r := fillLoop l oid rest mh.2 v1
      (mh.1 :: r.1, fs0 ++ r.2.1, r.2.2.1, r.2.2.2)

/-- Delete each of the given (already filled) orders from the level. -/
def deleteAll : Limit → List Nat → Heap → Limit × Heap
  | l, [], h => (l, h)
  | l, f :: fs, h =>
    let lh := l.DeleteOrder f h
    deleteAll lh.1 fs lh.2

/-- Models Limit.Fill: run the loop over the Orders slice, then delete
every resting order that became filled. -/
def Limit.Fill (l : Limit) (oid : Nat) (h : Heap) : List Match × Limit × Heap :=
  let r := fillLoop l oid l.Orders h l.TotalVolume
  let lh := deleteAll { l with TotalVolume := r.2.2.2 } r.2.1 r.2.2.1
  (r.1, lh.1, lh.2)

/-- Models the Go Orderbook struct: the asks and bids slices, the Orders
identity map (as the list of IDs it contains), the order store, and the
allocation counter for fresh IDs and timestamps. -/
structure Orderbook where
  asks : List Limit
  bids : List Limit
  Orders : List Nat
  heap : Heap
  nextId : Nat
deriving DecidableEq, Repr

/-- Models NewOrderbook(): the empty book. -/
def NewOrderbook : Orderbook := ⟨[], [], [], [], 0⟩

/-- Models NewOrder: allocate a fresh order with the given side and size,
a fresh ID and the current arrival timestamp. Note the source performs no
validation of the size. -/
def Orderbook.NewOrder (b : Orderbook) (bid : Bool) (size : ℤ) : Nat × Orderbook :=
  (b.nextId,
   { b with heap := ⟨b.nextId, size, bid, b.nextId, none⟩ :: b.heap, nextId := b.nextId + 1 })

/-- Price lookup in a side slice; models the AskLimits / BidLimits map
lookup (the map and the slice are kept in lockstep by the source). -/
def findLimit (xs : List Limit) (price : ℤ) : Option Limit :=
  xs.find? (fun l => decide (l.Price = price))

/-- Replace the level with the given price (unique per side). Models
mutation of a level through its pointer when the level sits in a side
slice. -/
def updateLimit (xs : List Limit) (price : ℤ) (l1 : Limit) : List Limit :=
  xs.map (fun l => if l.Price = price then l1 else l)

/-- Models Orderbook.DeleteLimit: remove the level from the side slice
(and the price map) by Go swap-remove. -/
def Orderbook.DeleteLimit (b : Orderbook) (bid : Bool) (price : ℤ) : Orderbook :=
  if bid then { b with bids := goSwapRemove (fun l => decide (l.Price = price)) b.bids }
  else { b with asks := goSwapRemove (fun l => decide (l.Price = price)) b.asks }

/-- Models Orderbook.PlaceLimitOrder: find or create the level at the
price on the side of the order, add the order to it, and register the
order in the identity map. -/
def Orderbook.PlaceLimitOrder (b : Orderbook) (price : ℤ) (oid : Nat) : Orderbook :=
  let o := heapGet b.heap oid
  if o.Bid then
    match findLimit b.bids price with
    | some l =>
      let lh := l.AddOrder oid b.heap
      { b with bids := updateLimit b.bids price lh.1, heap := lh.2, Orders := oid :: b.Orders }
    | none =>
      let lh := (Limit.mk price [] 0).AddOrder oid b.heap
      { b with bids := b.bids ++ [lh.1], heap := lh.2, Orders := oid :: b.Orders }
  else
    match findLimit b.asks price with
    | some l =>
      let lh := l.AddOrder oid b.heap
      { b with asks := updateLimit b.asks price lh.1, heap := lh.2, Orders := oid :: b.Orders }
    | none =>
      let lh := (Limit.mk price [] 0).AddOrder oid b.heap
      { b with asks := b.asks ++ [lh.1], heap := lh.2, Orders := oid :: b.Orders }

/-- Models Orderbook.BidTotalVolume. -/
def Orderbook.BidTotalVolume (b : Orderbook) : ℤ := (b.bids.map Limit.TotalVolume).sum

/-- Models Orderbook.AskTotalVolume. -/
def Orderbook.AskTotalVolume (b : Orderbook) : ℤ := (b.asks.map Limit.TotalVolume).sum

/-- Insertion into a list of levels sorted by strictly ascending price
(the ByBestAsk comparator). -/
def insertPriceAsc (x : Limit) : List Limit → List Limit
  | [] => [x]
  | y :: ys => if x.Price < y.Price then x :: y :: ys else y :: insertPriceAsc x ys

/-- Models sort.Sort(ByBestAsk{ob.asks}). Prices are pairwise distinct
per side, so this is the unique result of the unstable Go sort. -/
def sortAsksList : List Limit → List Limit
  | [] => []
  | x :: xs => insertPriceAsc x (sortAsksList xs)

/-- Insertion into a list of levels sorted by strictly descending price
(the ByBestBid comparator). -/
def insertPriceDesc (x : Limit) : List Limit → List Limit
  | [] => [x]
  | y :: ys => if y.Price < x.Price then x :: y :: ys else y :: insertPriceDesc x ys

/-- Models sort.Sort(ByBestBid{ob.bids}). -/
def sortBidsList : List Limit → List Limit
  | [] => []
  | x :: xs => insertPriceDesc x (sortBidsList xs)

/-- Models Orderbook.Asks(): sorts the asks slice in place (best price
first) and returns it. -/
def Orderbook.Asks (b : Orderbook) : List Limit × Orderbook :=
  let s := sortAsksList b.asks
  (s, { b with asks := s })

/-- Models Orderbook.Bids(): sorts the bids slice in place (best price
first) and returns it. -/
def Orderbook.Bids (b : Orderbook) : List Limit × Orderbook :=
  let s := sortBidsList b.bids
  (s, { b with bids := s })

/-- The level walk of PlaceMarkerOrder over the sorted snapshot of the
opposite side: fill each level with the incoming order and delete levels
that become empty. The consumed side is bids when consumeBids is true.
The walk visits every snapshot level; the source has no early exit once
the incoming order is filled. -/
def marketLoop (oid : Nat) (consumeBids : Bool) : List ℤ → Orderbook → List Match × Orderbook
  | [], b => ([], b)
  | p :: ps, b =>
    match findLimit (if consumeBids then b.bids else b.asks) p with
    | none => marketLoop oid consumeBids ps b
    | some l =>
      let r := l.Fill oid b.heap
      let b1 :=
        if consumeBids then { b with bids := updateLimit b.bids p r.2.1, heap := r.2.2 }
        else { b with asks := updateLimit b.asks p r.2.1, heap := r.2.2 }
      let b2 := if r.2.1.Orders = [] then b1.DeleteLimit consumeBids p else b1
      let rest := marketLoop oid consumeBids ps b2
      (r.1 ++ rest.1, rest.2)

/-- Result of PlaceMarkerOrder. The source calls log.Panicf when the
incoming size exceeds the total volume of the opposite side, which
terminates the process; that outcome is modelled by the constructor
insufficientVolumeAbort, carrying no successor state. -/
inductive MarketResult where
  | ok : List Match → Orderbook → MarketResult
  | insufficientVolumeAbort : MarketResult
deriving DecidableEq, Repr

/-- Models Orderbook.PlaceMarkerOrder: check the opposite-side volume
(aborting the process if insufficient), then walk the opposite side in
best-price order filling each level. -/
def Orderbook.PlaceMarkerOrder (b : Orderbook) (oid : Nat) : MarketResult :=
  let o := heapGet b.heap oid
  if o.Bid then
    if b.AskTotalVolume < o.Size then .insufficientVolumeAbort
    else
      let sb := b.Asks
      let r := marketLoop oid false (sb.1.map Limit.Price) sb.2
      .ok r.1 r.2
  else
    if b.BidTotalVolume < o.Size then .insufficientVolumeAbort
    else
      let sb := b.Bids
      let r := marketLoop oid true (sb.1.map Limit.Price) sb.2
      .ok r.1 r.2

/-- Models Orderbook.CancelOrder on a resting order: delete it from its
level via the back-pointer, delete the level if it became empty, remove
the ID from the identity map. (On an order with a nil back-pointer the
source dereferences nil and the process dies; this function is only
invoked on resting orders, see CancelById.) -/
def Orderbook.CancelOrder (b : Orderbook) (oid : Nat) : Orderbook :=
  let o := heapGet b.heap oid
  match o.LimitPrice with
  | none => b
  | some p =>
    match findLimit (if o.Bid then b.bids else b.asks) p with
    | none => b
    | some l =>
      let lh := l.DeleteOrder oid b.heap
      let b1 :=
        if o.Bid then { b with bids := updateLimit b.bids p lh.1, heap := lh.2 }
        else { b with asks := updateLimit b.asks p lh.1, heap := lh.2 }
      let b2 := if lh.1.Orders = [] then b1.DeleteLimit o.Bid p else b1
      { b2 with Orders := b2.Orders.filter (fun x => !(x == oid)) }

/-- Result of the cancel path of handleCancelOrder in src/main.go. The
handler looks the ID up in the identity map; on a miss it writes an
Order-not-found response but lacks a return statement, so it proceeds to
call CancelOrder on a nil order pointer, which dereferences nil and the
process (request) dies. An ID present in the map whose order has a nil
Limit back-pointer dies on the same dereference inside CancelOrder. -/
inductive CancelResult where
  | ok : Orderbook → CancelResult
  | notFoundThenNilOrderDeref : CancelResult
  | nilLimitDeref : CancelResult
deriving DecidableEq, Repr

/-- Models the engine-relevant part of handleCancelOrder in src/main.go
composed with Orderbook.CancelOrder. -/
def Orderbook.CancelById (b : Orderbook) (oid : Nat) : CancelResult :=
  if oid ∈ b.Orders then
    match (heapGet b.heap oid).LimitPrice with
    | none => .nilLimitDeref
    | some _ => .ok (b.CancelOrder oid)
  else .notFoundThenNilOrderDeref

/-- One placeLimit request: construct the order, then place it (the
handler in src/main.go calls NewOrder followed by PlaceLimitOrder). -/
def Orderbook.placeLimitStep (b : Orderbook) (bid : Bool) (price size : ℤ) : Orderbook :=
  let ob := b.NewOrder bid size
  ob.2.PlaceLimitOrder price ob.1

/-- One placeMarket request: construct the order, then run
PlaceMarkerOrder on it. -/
def Orderbook.placeMarketStep (b : Orderbook) (bid : Bool) (size : ℤ) : MarketResult :=
  let ob := b.NewOrder bid size
  ob.2.PlaceMarkerOrder ob.1

/-- Book states reachable through the engine interface under the
documented input contract (placed sizes are strictly positive, spec 4.1);
a market order that aborts the process and a cancel of a non-resting ID
produce no successor state. -/
inductive Reachable : Orderbook → Prop where
  | init : Reachable NewOrderbook
  | placeLimit {b : Orderbook} (bid : Bool) (price size : ℤ) (hpos : 0 < size) :
      Reachable b → Reachable (b.placeLimitStep bid price size)
  | placeMarket {b b' : Orderbook} (bid : Bool) (size : ℤ) (ms : List Match)
      (hpos : 0 < size) : Reachable b →
      b.placeMarketStep bid size = .ok ms b' → Reachable b'
  | cancel {b : Orderbook} (oid : Nat) : Reachable b → oid ∈ b.Orders →
      (heapGet b.heap oid).LimitPrice ≠ none → Reachable (b.CancelOrder oid)

/-- The matches of a market result (empty on abort). -/
def marketMatches : MarketResult → List Match
  | .ok ms _ => ms
  | .insufficientVolumeAbort => []

/-- The book of a market result (the empty book on abort). -/
def marketBook : MarketResult → Orderbook
  | .ok _ b => b
  | .insufficientVolumeAbort => NewOrderbook

/-- The two stores assign every ID the same remaining size. -/
def sizesEq (h h1 : Heap) : Prop := ∀ i, (heapGet h1 i).Size = (heapGet h i).Size

/-- Bundled postcondition of the Fill loop relative to the initial store
and running volume: matches ms, filled orders fs, final store h1 and
final volume v1. -/
structure FillLoopPost (oid : Nat) (os : List Nat) (h : Heap) (v : ℤ)
    (ms : List Match) (fs : List Nat) (h1 : Heap) (v1 : ℤ) : Prop where
  untouched : ∀ i, i ∉ os → i ≠ oid → heapGet h1 i = heapGet h i
  fields : ∀ i, (heapGet h1 i).ID = (heapGet h i).ID
    ∧ (heapGet h1 i).Bid = (heapGet h i).Bid
    ∧ (heapGet h1 i).Timestamp = (heapGet h i).Timestamp
    ∧ (heapGet h1 i).LimitPrice = (heapGet h i).LimitPrice
  idsEq : h1.map Order.ID = h.map Order.ID
  oidNonneg : 0 ≤ (heapGet h1 oid).Size
  osNonneg : ∀ i ∈ os, 0 ≤ (heapGet h1 i).Size
  survivors : ∀ i ∈ os, i ∉ fs → 0 < (heapGet h1 i).Size
  fsSub : fs ⊆ os
  fsNodup : fs.Nodup
  fsZero : ∀ i ∈ fs, (heapGet h1 i).Size = 0
  volTrack : v1 = v - (ms.map Match.SizeFilled).sum
  sumTrack : sumSizes h1 os = sumSizes h os - (ms.map Match.SizeFilled).sum

/-! ## Concrete trace books used in counterexample claims -/

/-- Three asks of size 1 at the same price, arriving at timestamps
0, 1, 2. -/
def fifoBook : Orderbook :=
  ((NewOrderbook.placeLimitStep false 100 1).placeLimitStep false 100 1).placeLimitStep
    false 100 1

/-- The book after a market bid of size 1 consumes the oldest ask:
Limit.DeleteOrder re-sorts the level by descending timestamp. -/
def fifoAfterFirst : Orderbook := marketBook (fifoBook.placeMarketStep true 1)

/-- Two ask levels: size 5 at price 100 and size 5 at price 200. -/
def twoLevelBook : Orderbook :=
  (NewOrderbook.placeLimitStep false 100 5).placeLimitStep false 200 5

/-- One ask of size 5 at price 100. -/
def oneAskBook : Orderbook := NewOrderbook.placeLimitStep false 100 5

/-- The book after a market bid of size 5 fully consumes the ask. -/
def filledBook : Orderbook := marketBook (oneAskBook.placeMarketStep true 5)

/-! ## Well-formedness invariants -/

/-- Well-formedness of one price level under a store: the cached volume
equals the sum of remaining sizes, the sequence is duplicate-free, every
resting order has strictly positive remaining size, sits on the side of
the level and points back at the level price. -/
structure LimitWF (h : Heap) (isBid : Bool) (l : Limit) : Prop where
  volEq : l.TotalVolume = sumSizes h l.Orders
  nodup : l.Orders.Nodup
  pos : ∀ i ∈ l.Orders, 0 < (heapGet h i).Size
  sideOk : ∀ i ∈ l.Orders, (heapGet h i).Bid = isBid
  backref : ∀ i ∈ l.Orders, (heapGet h i).LimitPrice = some l.Price

/-- Well-formedness of a whole book: each side consists of well-formed
levels with pairwise distinct prices, store IDs are unique and below the
allocation counter, no remaining size is negative, and every order whose
back-pointer is set rests in the level of that price on its side. -/
structure BookWF (b : Orderbook) : Prop where
  asksWF : ∀ l ∈ b.asks, LimitWF b.heap false l
  bidsWF : ∀ l ∈ b.bids, LimitWF b.heap true l
  asksNodup : (b.asks.map Limit.Price).Nodup
  bidsNodup : (b.bids.map Limit.Price).Nodup
  idNodup : (b.heap.map Order.ID).Nodup
  heapLt : ∀ o ∈ b.heap, o.ID < b.nextId
  nonneg : ∀ i, 0 ≤ (heapGet b.heap i).Size
  resting : ∀ i p, (heapGet b.heap i).LimitPrice = some p →
    ∃ l, l ∈ (if (heapGet b.heap i).Bid then b.bids else b.asks) ∧ l.Price = p ∧ i ∈ l.Orders


/-- Bundled postcondition of deleteAll: the effect of deleting each of
the (already filled) orders fs from the level. -/
structure DeleteAllPost (fs : List Nat) (l : Limit) (h : Heap)
    (l2 : Limit) (h2 : Heap) : Prop where
  perm : List.Perm l2.Orders (l.Orders.diff fs)
  vol : l2.TotalVolume = l.TotalVolume
  price : l2.Price = l.Price
  untouched : ∀ i, i ∉ fs → heapGet h2 i = heapGet h i
  sizes : ∀ i, (heapGet h2 i).Size = (heapGet h i).Size
  fsNone : ∀ i ∈ fs, (heapGet h2 i).LimitPrice = none
  fields : ∀ i, (heapGet h2 i).ID = (heapGet h i).ID
    ∧ (heapGet h2 i).Bid = (heapGet h i).Bid
    ∧ (heapGet h2 i).Timestamp = (heapGet h i).Timestamp
  idsEq : h2.map Order.ID = h.map Order.ID

/-- Bundled postcondition of Limit.Fill relative to the well-formed level
l it ran on: the updated level l2, the matches ms and the store h2. -/
structure FillPost (oid : Nat) (l : Limit) (h : Heap)
    (ms : List Match) (l2 : Limit) (h2 : Heap) : Prop where
  price : l2.Price = l.Price
  ordSub : ∀ i ∈ l2.Orders, i ∈ l.Orders
  nodup : l2.Orders.Nodup
  volEq : l2.TotalVolume = sumSizes h2 l2.Orders
  pos : ∀ i ∈ l2.Orders, 0 < (heapGet h2 i).Size
  backrefKeep : ∀ i ∈ l2.Orders, (heapGet h2 i).LimitPrice = (heapGet h i).LimitPrice
  removedNone : ∀ i ∈ l.Orders, i ∉ l2.Orders → (heapGet h2 i).LimitPrice = none
  untouched : ∀ i, i ∉ l.Orders → i ≠ oid → heapGet h2 i = heapGet h i
  oidBackref : (heapGet h2 oid).LimitPrice = (heapGet h oid).LimitPrice
  fields : ∀ i, (heapGet h2 i).ID = (heapGet h i).ID
    ∧ (heapGet h2 i).Bid = (heapGet h i).Bid
    ∧ (heapGet h2 i).Timestamp = (heapGet h i).Timestamp
  nonneg : ∀ i, 0 ≤ (heapGet h i).Size → 0 ≤ (heapGet h2 i).Size
  oidNonneg : 0 ≤ (heapGet h2 oid).Size
  idsEq : h2.map Order.ID = h.map Order.ID

/-! ## Store lemmas -/

theorem heapGet_not_has {h : Heap} {k : Nat} (hk : ¬ heapHas h k) :
    heapGet h k = ⟨0, 0, false, 0, none⟩ := by
  induction h with
  | nil => rfl
  | cons o t ih =>
    simp only [heapGet]
    split
    · exact absurd ⟨o, List.mem_cons_self o t, by assumption⟩ hk
    · exact ih fun ⟨o', ho', hid⟩ => hk ⟨o', List.mem_cons_of_mem o ho', hid⟩

theorem heapHas_of_size_pos {h : Heap} {k : Nat} (hk : (heapGet h k).Size ≠ 0) :
    heapHas h k := by
  by_contra hn
  rw [heapGet_not_has hn] at hk
  exact hk rfl

theorem heapGet_ID {h : Heap} {k : Nat} (hk : heapHas h k) : (heapGet h k).ID = k := by
  induction h with
  | nil => exact absurd hk (by rintro ⟨o, ho, -⟩; cases ho)
  | cons o t ih =>
    simp only [heapGet]
    split
    · assumption
    · rcases hk with ⟨o', ho', hid⟩
      rcases List.mem_cons.mp ho' with rfl | ho'
      · exact absurd hid (by assumption)
      · exact ih ⟨o', ho', hid⟩

theorem heapGet_set_ne {h : Heap} {k : Nat} {v : Order} (hv : v.ID = k)
    {i : Nat} (hne : i ≠ k) : heapGet (heapSet h k v) i = heapGet h i := by
  induction h with
  | nil => rfl
  | cons o t ih =>
    simp only [heapSet]
    split
    · simp only [heapGet, hv, if_neg (Ne.symm hne)]
      rw [if_neg (by omega : ¬ o.ID = i)]
      exact ih
    · simp only [heapGet]
      split <;> [rfl; exact ih]

theorem heapGet_set_self {h : Heap} {k : Nat} {v : Order} (hv : v.ID = k)
    (hk : heapHas h k) : heapGet (heapSet h k v) k = v := by
  induction h with
  | nil => exact absurd hk (by rintro ⟨o, ho, -⟩; cases ho)
  | cons o t ih =>
    simp only [heapSet]
    split
    · simp [heapGet, hv]
    · simp only [heapGet, if_neg (by assumption)]
      rcases hk with ⟨o', ho', hid⟩
      rcases List.mem_cons.mp ho' with rfl | ho'
      · exact absurd hid (by assumption)
      · exact ih ⟨o', ho', hid⟩

theorem heapSet_not_has {h : Heap} {k : Nat} {v : Order} (hk : ¬ heapHas h k) :
    heapSet h k v = h := by
  induction h with
  | nil => rfl
  | cons o t ih =>
    simp only [heapSet]
    rw [if_neg fun he => hk ⟨o, List.mem_cons_self o t, he⟩]
    rw [ih fun ⟨o', ho', hid⟩ => hk ⟨o', List.mem_cons_of_mem o ho', hid⟩]

theorem heapHas_set {h : Heap} {k : Nat} {v : Order} (hv : v.ID = k) {i : Nat} :
    heapHas (heapSet h k v) i ↔ heapHas h i := by
  induction h with
  | nil => simp [heapSet]
  | cons o t ih =>
    simp only [heapSet]
    split
    · constructor
      · rintro ⟨o', ho', hid⟩
        rcases List.mem_cons.mp ho' with rfl | ho'
        · exact ⟨o, List.mem_cons_self o t, by omega⟩
        · exact (ih.mp ⟨o', ho', hid⟩).imp fun x ⟨hx, hid⟩ => ⟨List.mem_cons_of_mem o hx, hid⟩
      · rintro ⟨o', ho', hid⟩
        rcases List.mem_cons.mp ho' with rfl | ho'
        · exact ⟨v, List.mem_cons_self v _, by omega⟩
        · exact (ih.mpr ⟨o', ho', hid⟩).imp fun x ⟨hx, hid⟩ => ⟨List.mem_cons_of_mem v hx, hid⟩
    · constructor
      · rintro ⟨o', ho', hid⟩
        rcases List.mem_cons.mp ho' with rfl | ho'
        · exact ⟨o', List.mem_cons_self o' t, hid⟩
        · exact (ih.mp ⟨o', ho', hid⟩).imp fun x ⟨hx, hid⟩ => ⟨List.mem_cons_of_mem o hx, hid⟩
      · rintro ⟨o', ho', hid⟩
        rcases List.mem_cons.mp ho' with rfl | ho'
        · exact ⟨o', List.mem_cons_self o' _, hid⟩
        · exact (ih.mpr ⟨o', ho', hid⟩).imp fun x ⟨hx, hid⟩ => ⟨List.mem_cons_of_mem o hx, hid⟩

/-! ## Claim C1: market order exceeding opposite-side volume -/

/-- Claim C1: on a market order whose size exceeds the total volume of
the opposite side, the source calls log.Panicf, which terminates the
process; no InsufficientLiquidity value is ever returned to the caller.
The theorem evaluates the embedded engine: for every book and every such
oversized market order, PlaceMarkerOrder reaches the process-aborting
outcome (and hence there is no post-call state at all, so in particular
no mutated book). -/
theorem market_insufficient_volume_aborts_process (b : Orderbook) (bid : Bool) (size : ℤ)
    (h : (if bid then b.AskTotalVolume else b.BidTotalVolume) < size) :
    b.placeMarketStep bid size = .insufficientVolumeAbort := by
  cases bid <;>
    simp_all [Orderbook.placeMarketStep, Orderbook.NewOrder, Orderbook.PlaceMarkerOrder,
      heapGet, Orderbook.AskTotalVolume, Orderbook.BidTotalVolume]

/-- Witness for C1: an empty book has no ask volume, so a market bid of
size 1 hits the process-aborting branch. -/
theorem market_insufficient_volume_aborts_process_witness :
    ((if true then NewOrderbook.AskTotalVolume else NewOrderbook.BidTotalVolume) < 1)
    ∧ NewOrderbook.placeMarketStep true 1 = .insufficientVolumeAbort :=
  ⟨by decide, market_insufficient_volume_aborts_process NewOrderbook true 1 (by decide)⟩

/-! ## Claim C6: cancelling an identity that is not resting -/

/-- Claim C6: cancelling an identity that is absent from the identity
index does not fail cleanly with OrderNotFound: the handler in
src/main.go writes the not-found response but lacks a return statement,
so it proceeds to call Orderbook.CancelOrder on a nil order pointer,
which dereferences nil and dies. For every book and every absent ID the
embedded cancel path reaches that outcome. -/
theorem cancel_absent_id_dereferences_nil (b : Orderbook) (oid : Nat)
    (h : oid ∉ b.Orders) : b.CancelById oid = .notFoundThenNilOrderDeref := by
  simp [Orderbook.CancelById, h]

/-- Witness for C6: cancelling ID 0 on the empty book. -/
theorem cancel_absent_id_dereferences_nil_witness :
    (0 ∉ NewOrderbook.Orders) ∧ NewOrderbook.CancelById 0 = .notFoundThenNilOrderDeref :=
  ⟨by decide, cancel_absent_id_dereferences_nil NewOrderbook 0 (by decide)⟩

/-! ## Claim C7: order construction validates nothing -/

/-- Claim C7, counterexample: the claim states that constructing an
order with non-positive size fails with InvalidOrder. The source NewOrder
has no validation at all: constructing an order of size -1 on the empty
book succeeds and stores the order. -/
theorem neworder_accepts_negative_size :
    (NewOrderbook.NewOrder false (-1)).2.heap = [⟨0, -1, false, 0, none⟩] := by decide

/-- Claim C7, amended: order construction never fails; for every side
and every size (positive or not) NewOrder allocates an order carrying
exactly the requested side and size, and PlaceLimitOrder accepts it,
registering it in the identity index. -/
theorem neworder_always_succeeds (b : Orderbook) (bid : Bool) (size price : ℤ) :
    heapGet (b.NewOrder bid size).2.heap (b.NewOrder bid size).1
      = ⟨b.nextId, size, bid, b.nextId, none⟩
    ∧ ((b.NewOrder bid size).2.PlaceLimitOrder price (b.NewOrder bid size).1).Orders
      = (b.NewOrder bid size).1 :: b.Orders := by
  have hg : heapGet (b.NewOrder bid size).2.heap (b.NewOrder bid size).1
      = ⟨b.nextId, size, bid, b.nextId, none⟩ := by
    simp [Orderbook.NewOrder, heapGet]
  refine ⟨hg, ?_⟩
  simp only [Orderbook.PlaceLimitOrder, hg]
  cases bid
  · cases hf : findLimit (b.NewOrder false size).2.asks price <;>
      simp [hf, Orderbook.NewOrder]
  · cases hf : findLimit (b.NewOrder true size).2.bids price <;>
      simp [hf, Orderbook.NewOrder]

/-! ## Claim C2: time priority after a deletion from a level -/

/-- Claim C2: after a deletion from a level, the level sequence is
re-sorted newest-first (orders [2, 1]), so the next fill consumes the
order with timestamp 2 while the order with the strictly earlier
timestamp 1 is still resting at the level — oldest-first FIFO is
violated by the source after deletions. -/
theorem fifo_time_priority_violated_after_delete :
    fifoAfterFirst.asks.map Limit.Orders = [[2, 1]]
    ∧ (heapGet fifoAfterFirst.heap 1).Timestamp < (heapGet fifoAfterFirst.heap 2).Timestamp
    ∧ (marketMatches (fifoAfterFirst.placeMarketStep true 1)).map Match.Ask = [2] := by
  decide

/-! ## Claim C3: the market walk does not stop at a filled incoming order -/

/-- Claim C3: a market bid of size 5 is fully filled by the first level,
yet PlaceMarkerOrder keeps walking: it calls Fill on the second level as
well and the returned matches contain a second, zero-size match against
the order resting there — not exactly the matches produced while the
incoming order still had remaining size. -/
theorem market_walk_emits_zero_size_match_on_later_level :
    (marketMatches (twoLevelBook.placeMarketStep true 5)).map
        (fun m => (m.Ask, m.SizeFilled)) = [(0, 5), (1, 0)]
    ∧ heapGet (marketBook (twoLevelBook.placeMarketStep true 5)).heap 1
        = ⟨1, 5, false, 1, some 200⟩ := by decide

/-! ## Claim C4: the identity index after a full fill -/

/-- Claim C4: after the resting order is fully filled by a market order
it is deleted from its level (which is itself deleted), yet its ID 0 is
still present in the identity index Orders — PlaceMarkerOrder never
removes filled orders from the index, only CancelOrder does. The claimed
if-and-only-if correspondence between the index and level membership is
violated. -/
theorem filled_order_lingers_in_identity_index :
    filledBook.Orders = [0] ∧ filledBook.asks = [] ∧ filledBook.bids = []
    ∧ heapGet filledBook.heap 0 = ⟨0, 0, false, 0, none⟩ := by decide

/-! ## Claim C10: Fill with an already-filled incoming order -/

theorem heapGet_set_get_self (h : Heap) (k i : Nat) :
    heapGet (heapSet h k (heapGet h k)) i = heapGet h i := by
  by_cases hk : heapHas h k
  · by_cases hik : i = k
    · subst hik
      rw [heapGet_set_self (heapGet_ID hk) hk]
    · rw [heapGet_set_ne (heapGet_ID hk) hik]
  · rw [heapSet_not_has hk]

/-- Claim C10: calling Fill on a non-empty level with an incoming order
whose remaining size is already 0 emits exactly one match, of size 0,
paired against the first resting order of the level sequence, and leaves
the level (its sequence and TotalVolume) and every remaining size in the
store unchanged. -/
theorem fill_with_filled_incoming (l : Limit) (h : Heap) (oid aId : Nat) (rest : List Nat)
    (ho : l.Orders = aId :: rest)
    (hz : (heapGet h oid).Size = 0)
    (hpos : ∀ i ∈ l.Orders, 0 < (heapGet h i).Size) :
    (l.Fill oid h).1 =
      [⟨if (heapGet h aId).Bid then oid else aId,
        if (heapGet h aId).Bid then aId else oid, 0, l.Price⟩]
    ∧ (l.Fill oid h).2.1 = l
    ∧ sizesEq h (l.Fill oid h).2.2 := by
  have haMem : aId ∈ l.Orders := ho ▸ List.mem_cons_self aId rest
  have ha : 0 < (heapGet h aId).Size := hpos aId haMem
  have hb0 : ({heapGet h oid with Size := 0} : Order) = heapGet h oid := by
    rw [← hz]
  have hfo : Limit.fillOrder l aId oid h =
      (⟨if (heapGet h aId).Bid then oid else aId,
        if (heapGet h aId).Bid then aId else oid, 0, l.Price⟩,
       heapSet (heapSet h aId (heapGet h aId)) oid (heapGet h oid)) := by
    simp only [Limit.fillOrder]
    rw [if_pos (hz ▸ le_of_lt ha)]
    rw [hz, sub_zero, hb0]
  have hkey : ∀ i,
      heapGet (heapSet (heapSet h aId (heapGet h aId)) oid (heapGet h oid)) i
        = heapGet h i := by
    intro i
    conv_lhs =>
      rw [show heapGet h oid = heapGet (heapSet h aId (heapGet h aId)) oid from
        (heapGet_set_get_self h aId oid).symm]
    rw [heapGet_set_get_self, heapGet_set_get_self]
  have hfa : (heapGet (heapSet (heapSet h aId (heapGet h aId)) oid (heapGet h oid)) aId).IsFilled
      = false := by
    rw [hkey aId]
    simp only [Order.IsFilled, decide_eq_false_iff_not]
    omega
  have hfb : (heapGet (heapSet (heapSet h aId (heapGet h aId)) oid (heapGet h oid)) oid).IsFilled
      = true := by
    rw [hkey oid]
    simp [Order.IsFilled, hz]
  have hloop : fillLoop l oid (aId :: rest) h l.TotalVolume
      = ([⟨if (heapGet h aId).Bid then oid else aId,
           if (heapGet h aId).Bid then aId else oid, 0, l.Price⟩],
         [], heapSet (heapSet h aId (heapGet h aId)) oid (heapGet h oid),
         l.TotalVolume - 0) := by
    simp only [fillLoop, hfo, hfa, hfb, if_true, if_false]
    simp
  have hfill : l.Fill oid h
      = ([⟨if (heapGet h aId).Bid then oid else aId,
           if (heapGet h aId).Bid then aId else oid, 0, l.Price⟩],
         l, heapSet (heapSet h aId (heapGet h aId)) oid (heapGet h oid)) := by
    simp only [Limit.Fill, ho, hloop, deleteAll, sub_zero]
    rw [← ho]
  rw [hfill]
  exact ⟨rfl, rfl, fun i => congrArg Order.Size (hkey i)⟩

/-- Witness for C10: a level holding one resting ask of size 3 at price
100, filled with the (unallocated, hence size 0) incoming ID 9. -/
theorem fill_with_filled_incoming_witness :
    ((⟨100, [7], 3⟩ : Limit).Orders = 7 :: [])
    ∧ (heapGet [⟨7, 3, false, 7, some 100⟩] 9).Size = 0
    ∧ (∀ i ∈ (⟨100, [7], 3⟩ : Limit).Orders, 0 < (heapGet [⟨7, 3, false, 7, some 100⟩] i).Size)
    ∧ ((⟨100, [7], 3⟩ : Limit).Fill 9 [⟨7, 3, false, 7, some 100⟩]).1
        = [⟨if (heapGet [⟨7, 3, false, 7, some 100⟩] 7).Bid then 9 else 7,
            if (heapGet [⟨7, 3, false, 7, some 100⟩] 7).Bid then 7 else 9, 0, 100⟩]
    ∧ ((⟨100, [7], 3⟩ : Limit).Fill 9 [⟨7, 3, false, 7, some 100⟩]).2.1 = ⟨100, [7], 3⟩
    ∧ sizesEq [⟨7, 3, false, 7, some 100⟩]
        ((⟨100, [7], 3⟩ : Limit).Fill 9 [⟨7, 3, false, 7, some 100⟩]).2.2 :=
  ⟨by decide, by decide, by decide,
   fill_with_filled_incoming ⟨100, [7], 3⟩ [⟨7, 3, false, 7, some 100⟩] 9 7 []
     rfl (by decide) (by decide)⟩

/-! ## Permutation facts about the Go swap-remove and the sorts -/

theorem goFindIdx_first {p : α → Bool} {s : List α} (t : List α) {x : α}
    (hs : ∀ y ∈ s, p y = false) (hx : p x = true) :
    goFindIdx p (s ++ x :: t) = some s.length := by
  induction s with
  | nil => simp [goFindIdx, hx]
  | cons a s ih =>
    have ha := hs a (List.mem_cons_self a s)
    have ih' := ih fun y hy => hs y (List.mem_cons_of_mem a hy)
    simp [goFindIdx, ha, ih']

theorem set_len_append (s : List α) (x z : α) (t : List α) :
    (s ++ x :: t).set s.length z = s ++ z :: t := by
  induction s with
  | nil => rfl
  | cons a s ih => simp [List.set, ih]

theorem goSwapRemove_perm {p : α → Bool} {s : List α} {x : α} (t : List α)
    (hs : ∀ y ∈ s, p y = false) (hx : p x = true) :
    List.Perm (goSwapRemove p (s ++ x :: t)) (s ++ t) := by
  rcases List.eq_nil_or_concat t with rfl | ⟨t', z, rfl⟩
  · unfold goSwapRemove
    rw [goFindIdx_first [] hs hx]
    have hlast : (s ++ [x]).getLast? = some x := List.getLast?_concat s
    rw [hlast]
    show List.Perm (((s ++ x :: []).set s.length x).dropLast) (s ++ [])
    rw [set_len_append]
    show List.Perm ((s ++ [x]).dropLast) (s ++ [])
    rw [List.dropLast_concat, List.append_nil]
  · simp only [List.concat_eq_append]
    unfold goSwapRemove
    rw [goFindIdx_first (t' ++ [z]) hs hx]
    have hlast : (s ++ x :: (t' ++ [z])).getLast? = some z := by
      rw [show s ++ x :: (t' ++ [z]) = (s ++ x :: t') ++ [z] by simp, List.getLast?_concat]
    rw [hlast]
    show List.Perm (((s ++ x :: (t' ++ [z])).set s.length z).dropLast) (s ++ (t' ++ [z]))
    rw [set_len_append]
    rw [show s ++ z :: (t' ++ [z]) = (s ++ z :: t') ++ [z] by simp, List.dropLast_concat]
    exact List.Perm.append_left s (List.perm_append_singleton z t').symm

theorem insertTsDesc_perm (h : Heap) (i : Nat) (os : List Nat) :
    List.Perm (insertTsDesc h i os) (i :: os) := by
  induction os with
  | nil => exact List.Perm.refl _
  | cons j js ih =>
    simp only [insertTsDesc]
    split
    · exact List.Perm.refl _
    · exact (ih.cons j).trans (List.Perm.swap i j js)

theorem sortOrdersDesc_perm (h : Heap) (os : List Nat) :
    List.Perm (sortOrdersDesc h os) os := by
  induction os with
  | nil => exact List.Perm.refl _
  | cons i is ih => exact (insertTsDesc_perm h i (sortOrdersDesc h is)).trans (ih.cons i)

theorem insertPriceAsc_perm (x : Limit) (xs : List Limit) :
    List.Perm (insertPriceAsc x xs) (x :: xs) := by
  induction xs with
  | nil => exact List.Perm.refl _
  | cons y ys ih =>
    simp only [insertPriceAsc]
    split
    · exact List.Perm.refl _
    · exact (ih.cons y).trans (List.Perm.swap x y ys)

theorem sortAsksList_perm (xs : List Limit) : List.Perm (sortAsksList xs) xs := by
  induction xs with
  | nil => exact List.Perm.refl _
  | cons x ys ih => exact (insertPriceAsc_perm x (sortAsksList ys)).trans (ih.cons x)

theorem insertPriceDesc_perm (x : Limit) (xs : List Limit) :
    List.Perm (insertPriceDesc x xs) (x :: xs) := by
  induction xs with
  | nil => exact List.Perm.refl _
  | cons y ys ih =>
    simp only [insertPriceDesc]
    split
    · exact List.Perm.refl _
    · exact (ih.cons y).trans (List.Perm.swap x y ys)

theorem sortBidsList_perm (xs : List Limit) : List.Perm (sortBidsList xs) xs := by
  induction xs with
  | nil => exact List.Perm.refl _
  | cons x ys ih => exact (insertPriceDesc_perm x (sortBidsList ys)).trans (ih.cons x)

/-- The ascending insertion keeps every element at most the head of what
follows. -/
theorem insertPriceAsc_sorted (x : Limit) (xs : List Limit)
    (hxs : xs.Pairwise fun a b => a.Price ≤ b.Price) :
    (insertPriceAsc x xs).Pairwise fun a b => a.Price ≤ b.Price := by
  induction xs with
  | nil => simp [insertPriceAsc]
  | cons y ys ih =>
    simp only [insertPriceAsc]
    rcases List.pairwise_cons.mp hxs with ⟨hy, hys⟩
    split
    · refine List.pairwise_cons.mpr ⟨?_, hxs⟩
      intro z hz
      rcases List.mem_cons.mp hz with rfl | hz
      · exact le_of_lt (by assumption)
      · exact le_trans (le_of_lt (by assumption)) (hy z hz)
    · refine List.pairwise_cons.mpr ⟨?_, ih hys⟩
      intro z hz
      rcases List.mem_cons.mp ((insertPriceAsc_perm x ys).mem_iff.mp hz) with rfl | hz
      · exact le_of_not_lt (by assumption)
      · exact hy z hz

theorem sortAsksList_sorted (xs : List Limit) :
    (sortAsksList xs).Pairwise fun a b => a.Price ≤ b.Price := by
  induction xs with
  | nil => simp [sortAsksList]
  | cons x ys ih => exact insertPriceAsc_sorted x (sortAsksList ys) ih

theorem insertPriceDesc_sorted (x : Limit) (xs : List Limit)
    (hxs : xs.Pairwise fun a b => b.Price ≤ a.Price) :
    (insertPriceDesc x xs).Pairwise fun a b => b.Price ≤ a.Price := by
  induction xs with
  | nil => simp [insertPriceDesc]
  | cons y ys ih =>
    simp only [insertPriceDesc]
    rcases List.pairwise_cons.mp hxs with ⟨hy, hys⟩
    split
    · refine List.pairwise_cons.mpr ⟨?_, hxs⟩
      intro z hz
      rcases List.mem_cons.mp hz with rfl | hz
      · exact le_of_lt (by assumption)
      · exact le_trans (hy z hz) (le_of_lt (by assumption))
    · refine List.pairwise_cons.mpr ⟨?_, ih hys⟩
      intro z hz
      rcases List.mem_cons.mp ((insertPriceDesc_perm x ys).mem_iff.mp hz) with rfl | hz
      · exact le_of_not_lt (by assumption)
      · exact hy z hz

theorem sortBidsList_sorted (xs : List Limit) :
    (sortBidsList xs).Pairwise fun a b => b.Price ≤ a.Price := by
  induction xs with
  | nil => simp [sortBidsList]
  | cons x ys ih => exact insertPriceDesc_sorted x (sortBidsList ys) ih

/-- A weakly sorted list of levels with pairwise distinct prices is
strictly sorted. -/
theorem pairwise_lt_of_le_nodup {xs : List Limit}
    (hle : xs.Pairwise fun a b => a.Price ≤ b.Price)
    (hnd : (xs.map Limit.Price).Nodup) :
    xs.Pairwise fun a b => a.Price < b.Price := by
  induction xs with
  | nil => simp
  | cons x ys ih =>
    rcases List.pairwise_cons.mp hle with ⟨hx, hys⟩
    have hnd2 : (x.Price :: ys.map Limit.Price).Nodup := by simpa using hnd
    rcases List.nodup_cons.mp hnd2 with ⟨hxm, hndt⟩
    refine List.pairwise_cons.mpr ⟨?_, ih hys hndt⟩
    intro z hz
    refine lt_of_le_of_ne (hx z hz) ?_
    intro he
    exact hxm (by simpa [← he] using List.mem_map_of_mem Limit.Price hz)

/-! ## Sum facts -/

theorem sumSizes_nil (h : Heap) : sumSizes h [] = 0 := rfl

theorem sumSizes_cons (h : Heap) (i : Nat) (os : List Nat) :
    sumSizes h (i :: os) = (heapGet h i).Size + sumSizes h os := by
  simp [sumSizes]

theorem sumSizes_congr {h h1 : Heap} {os : List Nat}
    (he : ∀ i ∈ os, (heapGet h1 i).Size = (heapGet h i).Size) :
    sumSizes h1 os = sumSizes h os := by
  unfold sumSizes
  exact congrArg List.sum (List.map_congr_left he)

theorem sumSizes_perm (h : Heap) {os os' : List Nat} (hp : List.Perm os os') :
    sumSizes h os = sumSizes h os' := (hp.map _).sum_eq

theorem sumSizes_erase {h : Heap} {os : List Nat} {a : Nat} (ha : a ∈ os) :
    sumSizes h os = (heapGet h a).Size + sumSizes h (os.erase a) :=
  (sumSizes_perm h (List.perm_cons_erase ha)).trans (sumSizes_cons h a (os.erase a))

theorem sumSizes_diff {h : Heap} {fs os : List Nat} (hsub : fs ⊆ os)
    (hfnd : fs.Nodup) : sumSizes h (os.diff fs) = sumSizes h os - sumSizes h fs := by
  induction fs generalizing os with
  | nil => simp [sumSizes_nil, List.diff_nil]
  | cons f fs ih =>
    rcases List.nodup_cons.mp hfnd with ⟨hfm, hfnd'⟩
    have hf : f ∈ os := hsub (List.mem_cons_self f fs)
    have hsub' : fs ⊆ os.erase f := by
      intro i hi
      have hne : i ≠ f := fun he => hfm (he ▸ hi)
      exact (List.mem_erase_of_ne hne).mpr (hsub (List.mem_cons_of_mem f hi))
    rw [List.diff_cons, ih hsub' hfnd', sumSizes_cons,
      sumSizes_erase hf]
    ring

/-! ## Decompositions of side slices and level sequences -/

/-- A level of a slice with pairwise distinct prices splits the slice with
no other level of that price on either part. -/
theorem exists_price_decomp {xs : List Limit} {l : Limit} (hm : l ∈ xs)
    (hn : (xs.map Limit.Price).Nodup) :
    ∃ s t, xs = s ++ l :: t ∧ (∀ y ∈ s, y.Price ≠ l.Price)
      ∧ ∀ y ∈ t, y.Price ≠ l.Price := by
  rcases List.append_of_mem hm with ⟨s, t, rfl⟩
  refine ⟨s, t, rfl, ?_, ?_⟩ <;>
  · intro y hy he
    have hmid : (l.Price :: (s.map Limit.Price ++ t.map Limit.Price)).Nodup := by
      rw [← List.nodup_middle]
      simpa using hn
    rcases List.nodup_cons.mp hmid with ⟨hnm, -⟩
    refine hnm ?_
    rw [← he]
    first
      | exact List.mem_append_left _ (List.mem_map_of_mem Limit.Price hy)
      | exact List.mem_append_right _ (List.mem_map_of_mem Limit.Price hy)

theorem findLimit_decomp {s t : List Limit} {l : Limit}
    (hs : ∀ y ∈ s, y.Price ≠ l.Price) :
    findLimit (s ++ l :: t) l.Price = some l := by
  induction s with
  | nil => simp [findLimit, List.find?]
  | cons a s ih =>
    have ha := hs a (List.mem_cons_self a s)
    simp only [findLimit, List.cons_append, List.find?] at *
    rw [decide_eq_false ha]
    exact ih fun y hy => hs y (List.mem_cons_of_mem a hy)

theorem updateLimit_decomp {s t : List Limit} {l l1 : Limit} {p : ℤ}
    (hs : ∀ y ∈ s, y.Price ≠ p) (ht : ∀ y ∈ t, y.Price ≠ p) (hl : l.Price = p) :
    updateLimit (s ++ l :: t) p l1 = s ++ l1 :: t := by
  induction s with
  | nil =>
    simp only [List.nil_append, updateLimit, List.map_cons, if_pos hl]
    congr 1
    conv_rhs => rw [← List.map_id t]
    exact List.map_congr_left fun y hy => if_neg (ht y hy)
  | cons a s ih =>
    have ha := hs a (List.mem_cons_self a s)
    simp only [updateLimit, List.cons_append, List.map_cons] at *
    rw [if_neg ha]
    rw [ih fun y hy => hs y (List.mem_cons_of_mem a hy)]

theorem mem_updateLimit_ne {xs : List Limit} {l' : Limit} {p : ℤ} {l1 : Limit}
    (hm : l' ∈ xs) (hp : l'.Price ≠ p) : l' ∈ updateLimit xs p l1 := by
  unfold updateLimit
  have : l' = if l'.Price = p then l1 else l' := by rw [if_neg hp]
  rw [this]
  exact List.mem_map_of_mem _ hm

theorem mem_updateLimit {xs : List Limit} {p : ℤ} {l1 y : Limit}
    (hy : y ∈ updateLimit xs p l1) : y = l1 ∨ (y ∈ xs ∧ y.Price ≠ p) := by
  unfold updateLimit at hy
  rcases List.mem_map.mp hy with ⟨z, hz, he⟩
  by_cases hc : z.Price = p
  · left
    rw [← he, if_pos hc]
  · right
    rw [← he, if_neg hc]
    exact ⟨hz, hc⟩

theorem updateLimit_map_price {xs : List Limit} {p : ℤ} {l1 : Limit} (h1 : l1.Price = p) :
    (updateLimit xs p l1).map Limit.Price = xs.map Limit.Price := by
  unfold updateLimit
  rw [List.map_map]
  refine List.map_congr_left fun y hy => ?_
  by_cases hc : y.Price = p <;> simp [hc, h1]

/-- Swap-remove of a level by price, from a decomposed slice. -/
theorem goSwapRemoveLimit_perm {s : List Limit} {l : Limit} {p : ℤ} (t : List Limit)
    (hs : ∀ y ∈ s, y.Price ≠ p) (hl : l.Price = p) :
    List.Perm (goSwapRemove (fun y => decide (y.Price = p)) (s ++ l :: t)) (s ++ t) :=
  goSwapRemove_perm t (fun y hy => decide_eq_false (hs y hy)) (decide_eq_true hl)

/-- Swap-remove of an order ID from a duplicate-free sequence reaches
exactly the sequence with that ID erased, up to permutation. -/
theorem goSwapRemoveId_perm {os : List Nat} {oid : Nat} (hm : oid ∈ os) (hnd : os.Nodup) :
    List.Perm (goSwapRemove (fun x => x == oid) os) (os.erase oid) := by
  rcases List.append_of_mem hm with ⟨s, t, rfl⟩
  have hmid : (oid :: (s ++ t)).Nodup := List.nodup_middle.mp hnd
  rcases List.nodup_cons.mp hmid with ⟨hnm, -⟩
  have hos : oid ∉ s := fun hc => hnm (List.mem_append_left t hc)
  have he : (s ++ oid :: t).erase oid = s ++ t := by
    rw [List.erase_append_right _ hos, List.erase_cons_head]
  rw [he]
  refine goSwapRemove_perm t (fun y hy => ?_) (by simp)
  have : y ≠ oid := fun hc => hos (hc ▸ hy)
  simp [this]

/-! ## ID-keyed store facts -/

theorem heapSet_map_ID {h : Heap} {k : Nat} {v : Order} (hv : v.ID = k) :
    (heapSet h k v).map Order.ID = h.map Order.ID := by
  induction h with
  | nil => rfl
  | cons o t ih =>
    simp only [heapSet]
    split
    · simp only [List.map_cons, ih, hv]
      rw [(by assumption : o.ID = k)]
    · simp [ih]

theorem heapGet_of_mem {h : Heap} (hnd : (h.map Order.ID).Nodup) {o : Order}
    (ho : o ∈ h) : heapGet h o.ID = o := by
  induction h with
  | nil => cases ho
  | cons x t ih =>
    have hnd2 : (x.ID :: t.map Order.ID).Nodup := by simpa using hnd
    rcases List.nodup_cons.mp hnd2 with ⟨hxm, hndt⟩
    rcases List.mem_cons.mp ho with rfl | ho
    · simp [heapGet]
    · have hne : x.ID ≠ o.ID := fun he => hxm (he ▸ List.mem_map_of_mem Order.ID ho)
      simp only [heapGet, if_neg hne]
      exact ih hndt ho

theorem LimitWF.memHas {h : Heap} {isBid : Bool} {l : Limit} (hw : LimitWF h isBid l)
    {i : Nat} (hi : i ∈ l.Orders) : heapHas h i :=
  heapHas_of_size_pos (ne_of_gt (hw.pos i hi))

theorem BookWF.has_lt {b : Orderbook} (hw : BookWF b) {i : Nat}
    (hh : heapHas b.heap i) : i < b.nextId := by
  rcases hh with ⟨o, ho, hid⟩
  exact hid ▸ hw.heapLt o ho

/-! ## The fillOrder specification -/

theorem fillOrder_spec (l : Limit) (aId oid : Nat) (h : Heap)
    (hne : aId ≠ oid)
    (ha : 0 < (heapGet h aId).Size)
    (hb : 0 ≤ (heapGet h oid).Size) :
    (l.fillOrder aId oid h).1.SizeFilled
        = min (heapGet h aId).Size (heapGet h oid).Size
    ∧ (heapGet (l.fillOrder aId oid h).2 aId).Size
        = (heapGet h aId).Size - (l.fillOrder aId oid h).1.SizeFilled
    ∧ (heapGet (l.fillOrder aId oid h).2 oid).Size
        = (heapGet h oid).Size - (l.fillOrder aId oid h).1.SizeFilled
    ∧ (∀ i, i ≠ aId → i ≠ oid →
        heapGet (l.fillOrder aId oid h).2 i = heapGet h i)
    ∧ (∀ i, (heapGet (l.fillOrder aId oid h).2 i).ID = (heapGet h i).ID
        ∧ (heapGet (l.fillOrder aId oid h).2 i).Bid = (heapGet h i).Bid
        ∧ (heapGet (l.fillOrder aId oid h).2 i).Timestamp = (heapGet h i).Timestamp
        ∧ (heapGet (l.fillOrder aId oid h).2 i).LimitPrice = (heapGet h i).LimitPrice)
    ∧ (l.fillOrder aId oid h).2.map Order.ID = h.map Order.ID := by
  have hasA : heapHas h aId := heapHas_of_size_pos (ne_of_gt ha)
  have hidA : (heapGet h aId).ID = aId := heapGet_ID hasA
  by_cases hc : (heapGet h oid).Size ≤ (heapGet h aId).Size
  · have hmin : min (heapGet h aId).Size (heapGet h oid).Size = (heapGet h oid).Size :=
      min_eq_right hc
    have hva : ({ heapGet h aId with
        Size := (heapGet h aId).Size - (heapGet h oid).Size } : Order).ID = aId := hidA
    have hvb : ({ heapGet h oid with Size := 0 } : Order).ID = (heapGet h oid).ID := rfl
    have hr : l.fillOrder aId oid h =
        (⟨if (heapGet h aId).Bid then oid else aId,
          if (heapGet h aId).Bid then aId else oid, (heapGet h oid).Size, l.Price⟩,
         heapSet (heapSet h aId
             { heapGet h aId with Size := (heapGet h aId).Size - (heapGet h oid).Size })
           oid { heapGet h oid with Size := 0 }) := by
      simp only [Limit.fillOrder, if_pos hc]
    rw [hr]
    by_cases hbH : heapHas h oid
    · have hidB : (heapGet h oid).ID = oid := heapGet_ID hbH
      have hvb' : ({ heapGet h oid with Size := 0 } : Order).ID = oid := hidB
      have hasA' : heapHas (heapSet h aId
          { heapGet h aId with Size := (heapGet h aId).Size - (heapGet h oid).Size }) aId :=
        (heapHas_set hva).mpr hasA
      have hbH' : heapHas (heapSet h aId
          { heapGet h aId with Size := (heapGet h aId).Size - (heapGet h oid).Size }) oid :=
        (heapHas_set hva).mpr hbH
      refine ⟨by simp [hmin], ?_, ?_, ?_, ?_, ?_⟩
      · rw [heapGet_set_ne hvb' hne, heapGet_set_self hva hasA]
      · rw [heapGet_set_self hvb' hbH']
        simp
      · intro i hia hio
        rw [heapGet_set_ne hvb' hio, heapGet_set_ne hva hia]
      · intro i
        by_cases hia : i = aId
        · subst hia
          rw [heapGet_set_ne hvb' hne, heapGet_set_self hva hasA]
          exact ⟨rfl, rfl, rfl, rfl⟩
        · by_cases hio : i = oid
          · subst hio
            rw [heapGet_set_self hvb' hbH']
            exact ⟨rfl, rfl, rfl, rfl⟩
          · rw [heapGet_set_ne hvb' hio, heapGet_set_ne hva hia]
            exact ⟨rfl, rfl, rfl, rfl⟩
      · rw [heapSet_map_ID hvb', heapSet_map_ID hva]
    · have hb0 : (heapGet h oid).Size = 0 := by
        rw [heapGet_not_has hbH]
      have hbH' : ¬ heapHas (heapSet h aId
          { heapGet h aId with Size := (heapGet h aId).Size - (heapGet h oid).Size }) oid :=
        fun hc2 => hbH ((heapHas_set hva).mp hc2)
      rw [heapSet_not_has hbH']
      refine ⟨by simp [hmin], ?_, ?_, ?_, ?_, ?_⟩
      · rw [heapGet_set_self hva hasA]
      · rw [heapGet_set_ne hva (Ne.symm hne), hb0]
        simp
      · intro i hia _
        rw [heapGet_set_ne hva hia]
      · intro i
        by_cases hia : i = aId
        · subst hia
          rw [heapGet_set_self hva hasA]
          exact ⟨rfl, rfl, rfl, rfl⟩
        · rw [heapGet_set_ne hva hia]
          exact ⟨rfl, rfl, rfl, rfl⟩
      · rw [heapSet_map_ID hva]
  · have hlt : (heapGet h aId).Size < (heapGet h oid).Size := lt_of_not_le hc
    have hmin : min (heapGet h aId).Size (heapGet h oid).Size = (heapGet h aId).Size :=
      min_eq_left (le_of_lt hlt)
    have hbH : heapHas h oid :=
      heapHas_of_size_pos (ne_of_gt (lt_trans ha hlt))
    have hidB : (heapGet h oid).ID = oid := heapGet_ID hbH
    have hva : ({ heapGet h aId with Size := 0 } : Order).ID = aId := hidA
    have hvb : ({ heapGet h oid with
        Size := (heapGet h oid).Size - (heapGet h aId).Size } : Order).ID = oid := hidB
    have hr : l.fillOrder aId oid h =
        (⟨if (heapGet h aId).Bid then oid else aId,
          if (heapGet h aId).Bid then aId else oid, (heapGet h aId).Size, l.Price⟩,
         heapSet (heapSet h oid
             { heapGet h oid with Size := (heapGet h oid).Size - (heapGet h aId).Size })
           aId { heapGet h aId with Size := 0 }) := by
      simp only [Limit.fillOrder, if_neg hc]
    rw [hr]
    have hasA' : heapHas (heapSet h oid
        { heapGet h oid with Size := (heapGet h oid).Size - (heapGet h aId).Size }) aId :=
      (heapHas_set hvb).mpr hasA
    have hbH' : heapHas (heapSet h oid
        { heapGet h oid with Size := (heapGet h oid).Size - (heapGet h aId).Size }) oid :=
      (heapHas_set hvb).mpr hbH
    refine ⟨by simp [hmin], ?_, ?_, ?_, ?_, ?_⟩
    · rw [heapGet_set_self hva hasA']
      simp
    · rw [heapGet_set_ne hva (Ne.symm hne), heapGet_set_self hvb hbH]
    · intro i hia hio
      rw [heapGet_set_ne hva hia, heapGet_set_ne hvb hio]
    · intro i
      by_cases hia : i = aId
      · subst hia
        rw [heapGet_set_self hva hasA']
        exact ⟨rfl, rfl, rfl, rfl⟩
      · by_cases hio : i = oid
        · subst hio
          rw [heapGet_set_ne hva (Ne.symm hne), heapGet_set_self hvb hbH]
          exact ⟨rfl, rfl, rfl, rfl⟩
        · rw [heapGet_set_ne hva hia, heapGet_set_ne hvb hio]
          exact ⟨rfl, rfl, rfl, rfl⟩
    · rw [heapSet_map_ID hva, heapSet_map_ID hvb]

/-! ## The Fill loop specification -/

theorem fillLoop_spec (l : Limit) (oid : Nat) (os : List Nat) (h : Heap) (v : ℤ)
    (hnd : os.Nodup) (hno : oid ∉ os)
    (hpos : ∀ i ∈ os, 0 < (heapGet h i).Size)
    (hb : 0 ≤ (heapGet h oid).Size) :
    FillLoopPost oid os h v (fillLoop l oid os h v).1 (fillLoop l oid os h v).2.1
      (fillLoop l oid os h v).2.2.1 (fillLoop l oid os h v).2.2.2 := by
  induction os generalizing h v with
  | nil =>
    simp only [fillLoop]
    exact ⟨fun i _ _ => rfl, fun i => ⟨rfl, rfl, rfl, rfl⟩, rfl, hb,
      by simp, by simp, by simp, List.nodup_nil, by simp,
      by simp, by simp⟩
  | cons aId rest ih =>
    have haMem : aId ∈ aId :: rest := List.mem_cons_self aId rest
    have ha : 0 < (heapGet h aId).Size := hpos aId haMem
    have hne : aId ≠ oid := fun he => hno (he ▸ haMem)
    have hanr : aId ∉ rest := (List.nodup_cons.mp hnd).1
    obtain ⟨hSF, hA, hB, hUn, hFld, hIds⟩ := fillOrder_spec l aId oid h hne ha hb
    have hrest_eq : ∀ i ∈ rest, heapGet (l.fillOrder aId oid h).2 i = heapGet h i := by
      intro i hi
      exact hUn i (fun he => hanr (he ▸ hi)) (fun he => hno (he ▸ List.mem_cons_of_mem aId hi))
    rcases Bool.eq_false_or_eq_true ((heapGet (l.fillOrder aId oid h).2 oid).IsFilled)
      with hf | hf
    · -- the incoming order is filled: the loop stops after this order
      have hz : (heapGet (l.fillOrder aId oid h).2 oid).Size = 0 := by
        simpa [Order.IsFilled] using hf
      have hgoal : fillLoop l oid (aId :: rest) h v
          = ([(l.fillOrder aId oid h).1],
             (if (heapGet (l.fillOrder aId oid h).2 aId).IsFilled then [aId] else []),
             (l.fillOrder aId oid h).2,
             v - (l.fillOrder aId oid h).1.SizeFilled) := by
        simp only [fillLoop, hf]
        simp
      rw [hgoal]
      dsimp only
      refine ⟨?_, hFld, hIds, le_of_eq hz.symm, ?_, ?_, ?_, ?_, ?_, ?_, ?_⟩
      · intro i hi hio
        exact hUn i (fun he => hi (he ▸ haMem)) hio
      · intro i hi
        rcases List.mem_cons.mp hi with rfl | hi
        · rw [hA, hSF]
          simp [sub_nonneg, min_le_left]
        · rw [hrest_eq i hi]
          exact le_of_lt (hpos i (List.mem_cons_of_mem aId hi))
      · intro i hi hifs
        rcases List.mem_cons.mp hi with rfl | hi
        · have hnotf : ¬ (heapGet (l.fillOrder i oid h).2 i).IsFilled = true := by
            intro hc
            rw [hc] at hifs
            exact hifs (by simp)
          have hz2 : (heapGet (l.fillOrder i oid h).2 i).Size ≠ 0 := by
            simpa [Order.IsFilled] using hnotf
          have hnn : 0 ≤ (heapGet (l.fillOrder i oid h).2 i).Size := by
            rw [hA, hSF]
            simp [sub_nonneg, min_le_left]
          exact lt_of_le_of_ne hnn (Ne.symm hz2)
        · rw [hrest_eq i hi]
          exact hpos i (List.mem_cons_of_mem aId hi)
      · intro i hi
        by_cases hfa : (heapGet (l.fillOrder aId oid h).2 aId).IsFilled = true
        · rw [if_pos hfa] at hi
          rcases List.mem_cons.mp hi with rfl | hfalse
          · exact haMem
          · cases hfalse
        · rw [if_neg hfa] at hi
          cases hi
      · split <;> simp
      · intro i hi
        by_cases hfa : (heapGet (l.fillOrder aId oid h).2 aId).IsFilled = true
        · rw [if_pos hfa] at hi
          rcases List.mem_cons.mp hi with rfl | hfalse
          · simpa [Order.IsFilled] using hfa
          · cases hfalse
        · rw [if_neg hfa] at hi
          cases hi
      · simp
      · rw [sumSizes_cons, sumSizes_cons, hA, sumSizes_congr (fun i hi => congrArg Order.Size (hrest_eq i hi))]
        simp only [List.map_cons, List.map_nil, List.sum_cons, List.sum_nil]
        ring
    · -- incoming order still has remaining size: the loop recurses
      have hb1 : 0 ≤ (heapGet (l.fillOrder aId oid h).2 oid).Size := by
        rw [hB, hSF]
        simp [sub_nonneg, min_le_right]
      have hpos1 : ∀ i ∈ rest, 0 < (heapGet (l.fillOrder aId oid h).2 i).Size := by
        intro i hi
        rw [hrest_eq i hi]
        exact hpos i (List.mem_cons_of_mem aId hi)
      have P := ih (l.fillOrder aId oid h).2 (v - (l.fillOrder aId oid h).1.SizeFilled)
        (List.nodup_cons.mp hnd).2 (fun hc => hno (List.mem_cons_of_mem aId hc)) hpos1 hb1
      have hgoal : fillLoop l oid (aId :: rest) h v
          = ((l.fillOrder aId oid h).1 ::
              (fillLoop l oid rest (l.fillOrder aId oid h).2
                (v - (l.fillOrder aId oid h).1.SizeFilled)).1,
             (if (heapGet (l.fillOrder aId oid h).2 aId).IsFilled then [aId] else []) ++
              (fillLoop l oid rest (l.fillOrder aId oid h).2
                (v - (l.fillOrder aId oid h).1.SizeFilled)).2.1,
             (fillLoop l oid rest (l.fillOrder aId oid h).2
                (v - (l.fillOrder aId oid h).1.SizeFilled)).2.2.1,
             (fillLoop l oid rest (l.fillOrder aId oid h).2
                (v - (l.fillOrder aId oid h).1.SizeFilled)).2.2.2) := by
        simp only [fillLoop, hf]
        simp
      rw [hgoal]
      dsimp only
      have haIdnr : aId ∉ (fillLoop l oid rest (l.fillOrder aId oid h).2
          (v - (l.fillOrder aId oid h).1.SizeFilled)).2.1 :=
        fun hc => hanr (P.fsSub hc)
      have haIdfinal : heapGet (fillLoop l oid rest (l.fillOrder aId oid h).2
            (v - (l.fillOrder aId oid h).1.SizeFilled)).2.2.1 aId
          = heapGet (l.fillOrder aId oid h).2 aId :=
        P.untouched aId hanr hne
      refine ⟨?_, ?_, ?_, P.oidNonneg, ?_, ?_, ?_, ?_, ?_, ?_, ?_⟩
      · intro i hi hio
        have hir : i ∉ rest := fun hc => hi (List.mem_cons_of_mem aId hc)
        have hia : i ≠ aId := fun he => hi (he ▸ haMem)
        rw [P.untouched i hir hio, hUn i hia hio]
      · intro i
        obtain ⟨p1, p2, p3, p4⟩ := P.fields i
        obtain ⟨q1, q2, q3, q4⟩ := hFld i
        exact ⟨p1.trans q1, p2.trans q2, p3.trans q3, p4.trans q4⟩
      · exact P.idsEq.trans hIds
      · intro i hi
        rcases List.mem_cons.mp hi with rfl | hi
        · rw [haIdfinal, hA, hSF]
          simp [sub_nonneg, min_le_left]
        · exact P.osNonneg i hi
      · intro i hi hifs
        rcases List.mem_cons.mp hi with rfl | hi
        · have hifs0 : i ∉ (if (heapGet (l.fillOrder i oid h).2 i).IsFilled
              then [i] else []) := fun hc => hifs (List.mem_append_left _ hc)
          have hnotf : ¬ (heapGet (l.fillOrder i oid h).2 i).IsFilled = true := by
            intro hc
            rw [hc] at hifs0
            exact hifs0 (by simp)
          have hz : (heapGet (l.fillOrder i oid h).2 i).Size ≠ 0 := by
            simpa [Order.IsFilled] using hnotf
          have hnn : 0 ≤ (heapGet (l.fillOrder i oid h).2 i).Size := by
            rw [hA, hSF]
            simp [sub_nonneg, min_le_left]
          rw [haIdfinal]
          exact lt_of_le_of_ne hnn (Ne.symm hz)
        · exact P.survivors i hi fun hc => hifs (List.mem_append_right _ hc)
      · intro i hi
        rcases List.mem_append.mp hi with hi | hi
        · by_cases hfa : (heapGet (l.fillOrder aId oid h).2 aId).IsFilled = true
          · rw [if_pos hfa] at hi
            rcases List.mem_cons.mp hi with rfl | hfalse
            · exact haMem
            · cases hfalse
          · rw [if_neg hfa] at hi
            cases hi
        · exact List.mem_cons_of_mem aId (P.fsSub hi)
      · have hfs0 : (if (heapGet (l.fillOrder aId oid h).2 aId).IsFilled
            then [aId] else []) ⊆ [aId] := by split <;> simp
        refine List.Nodup.append ?_ P.fsNodup ?_
        · split <;> simp
        · intro x hx hx2
          have : x = aId := by simpa using hfs0 hx
          exact haIdnr (this ▸ hx2)
      · intro i hi
        rcases List.mem_append.mp hi with hi | hi
        · by_cases hfa : (heapGet (l.fillOrder aId oid h).2 aId).IsFilled = true
          · rw [if_pos hfa] at hi
            rcases List.mem_cons.mp hi with rfl | hfalse
            · rw [haIdfinal]
              simpa [Order.IsFilled] using hfa
            · cases hfalse
          · rw [if_neg hfa] at hi
            cases hi
        · exact P.fsZero i hi
      · rw [P.volTrack]
        simp only [List.map_cons, List.sum_cons]
        ring
      · rw [sumSizes_cons, sumSizes_cons, haIdfinal, hA,
          P.sumTrack, sumSizes_congr (fun i hi => congrArg Order.Size (hrest_eq i hi))]
        simp only [List.map_cons, List.sum_cons]
        ring

/-! ## DeleteOrder, deleteAll and Fill specifications -/

theorem DeleteOrder_spec (l : Limit) (oid : Nat) (h : Heap)
    (hm : oid ∈ l.Orders) (hnd : l.Orders.Nodup) :
    List.Perm (l.DeleteOrder oid h).1.Orders (l.Orders.erase oid)
    ∧ (l.DeleteOrder oid h).1.TotalVolume = l.TotalVolume - (heapGet h oid).Size
    ∧ (l.DeleteOrder oid h).1.Price = l.Price
    ∧ (∀ i, i ≠ oid → heapGet (l.DeleteOrder oid h).2 i = heapGet h i)
    ∧ (heapGet (l.DeleteOrder oid h).2 oid).Size = (heapGet h oid).Size
    ∧ (heapGet (l.DeleteOrder oid h).2 oid).Bid = (heapGet h oid).Bid
    ∧ (heapGet (l.DeleteOrder oid h).2 oid).Timestamp = (heapGet h oid).Timestamp
    ∧ (heapGet (l.DeleteOrder oid h).2 oid).ID = (heapGet h oid).ID
    ∧ (heapGet (l.DeleteOrder oid h).2 oid).LimitPrice = none
    ∧ (l.DeleteOrder oid h).2.map Order.ID = h.map Order.ID := by
  have hperm : List.Perm (l.DeleteOrder oid h).1.Orders (l.Orders.erase oid) := by
    simp only [Limit.DeleteOrder]
    exact (sortOrdersDesc_perm _ _).trans (goSwapRemoveId_perm hm hnd)
  by_cases hH : heapHas h oid
  · have hv : ({ heapGet h oid with LimitPrice := none } : Order).ID = oid := heapGet_ID hH
    refine ⟨hperm, rfl, rfl, ?_, ?_, ?_, ?_, ?_, ?_, ?_⟩
    · intro i hi
      exact heapGet_set_ne hv hi
    · show (heapGet (heapSet h oid _) oid).Size = _
      rw [heapGet_set_self hv hH]
    · show (heapGet (heapSet h oid _) oid).Bid = _
      rw [heapGet_set_self hv hH]
    · show (heapGet (heapSet h oid _) oid).Timestamp = _
      rw [heapGet_set_self hv hH]
    · show (heapGet (heapSet h oid _) oid).ID = _
      rw [heapGet_set_self hv hH]
    · show (heapGet (heapSet h oid _) oid).LimitPrice = none
      rw [heapGet_set_self hv hH]
    · exact heapSet_map_ID hv
  · have hset : heapSet h oid { heapGet h oid with LimitPrice := none } = h :=
      heapSet_not_has hH
    have hd : (heapGet h oid).LimitPrice = none := by
      rw [heapGet_not_has hH]
    refine ⟨hperm, rfl, rfl, ?_, ?_, ?_, ?_, ?_, ?_, ?_⟩
    · intro i _
      show heapGet (heapSet h oid _) i = heapGet h i
      rw [hset]
    all_goals simp only [Limit.DeleteOrder]
    all_goals rw [hset]
    exact hd

theorem deleteAll_spec (l : Limit) (fs : List Nat) (h : Heap)
    (hnd : l.Orders.Nodup) (hfnd : fs.Nodup) (hsub : fs ⊆ l.Orders)
    (hzero : ∀ i ∈ fs, (heapGet h i).Size = 0) :
    DeleteAllPost fs l h (deleteAll l fs h).1 (deleteAll l fs h).2 := by
  induction fs generalizing l h with
  | nil =>
    simp only [deleteAll, List.diff_nil]
    exact ⟨List.Perm.refl _, rfl, rfl, fun i _ => rfl, fun i => rfl, by simp,
      fun i => ⟨rfl, rfl, rfl⟩, rfl⟩
  | cons f fs ih =>
    have hfm : f ∈ l.Orders := hsub (List.mem_cons_self f fs)
    rcases List.nodup_cons.mp hfnd with ⟨hff, hfnd2⟩
    obtain ⟨dperm, dvol, dprice, dne, dsz, dbid, dts, did, dnone, dids⟩ :=
      DeleteOrder_spec l f h hfm hnd
    have hnd1 : (l.DeleteOrder f h).1.Orders.Nodup :=
      dperm.nodup_iff.mpr (hnd.erase f)
    have hsub1 : fs ⊆ (l.DeleteOrder f h).1.Orders := by
      intro i hi
      have hne : i ≠ f := fun he => hff (he ▸ hi)
      refine dperm.mem_iff.mpr ?_
      exact (List.mem_erase_of_ne hne).mpr (hsub (List.mem_cons_of_mem f hi))
    have hzero1 : ∀ i ∈ fs, (heapGet (l.DeleteOrder f h).2 i).Size = 0 := by
      intro i hi
      have hne : i ≠ f := fun he => hff (he ▸ hi)
      rw [dne i hne]
      exact hzero i (List.mem_cons_of_mem f hi)
    have P := ih (l.DeleteOrder f h).1 (l.DeleteOrder f h).2 hnd1 hfnd2 hsub1 hzero1
    have hstep : deleteAll l (f :: fs) h
        = deleteAll (l.DeleteOrder f h).1 fs (l.DeleteOrder f h).2 := by
      simp only [deleteAll]
    rw [hstep]
    refine ⟨?_, ?_, ?_, ?_, ?_, ?_, ?_, ?_⟩
    · refine P.perm.trans ?_
      rw [List.diff_cons]
      exact List.Perm.diff_right fs dperm
    · rw [P.vol, dvol, hzero f (List.mem_cons_self f fs)]
      ring
    · rw [P.price, dprice]
    · intro i hi
      have hif : i ∉ fs := fun hc => hi (List.mem_cons_of_mem f hc)
      have hne : i ≠ f := fun he => hi (he ▸ List.mem_cons_self f fs)
      rw [P.untouched i hif, dne i hne]
    · intro i
      by_cases hne : i = f
      · subst hne
        have hif : i ∉ fs := hff
        rw [P.untouched i hif, dsz]
      · rw [P.sizes i]
        rw [dne i hne]
    · intro i hi
      rcases List.mem_cons.mp hi with rfl | hi
      · rw [P.untouched i hff, dnone]
      · exact P.fsNone i hi
    · intro i
      obtain ⟨p1, p2, p3⟩ := P.fields i
      by_cases hne : i = f
      · subst hne
        rw [P.untouched i hff]
        exact ⟨did, dbid, dts⟩
      · rw [p1, p2, p3, dne i hne]
        exact ⟨rfl, rfl, rfl⟩
    · exact P.idsEq.trans dids

theorem Fill_spec (l : Limit) (oid : Nat) (h : Heap)
    (hvol : l.TotalVolume = sumSizes h l.Orders)
    (hnd : l.Orders.Nodup)
    (hpos : ∀ i ∈ l.Orders, 0 < (heapGet h i).Size)
    (hno : oid ∉ l.Orders)
    (hb : 0 ≤ (heapGet h oid).Size) :
    FillPost oid l h (l.Fill oid h).1 (l.Fill oid h).2.1 (l.Fill oid h).2.2 := by
  obtain L := fillLoop_spec l oid l.Orders h l.TotalVolume hnd hno hpos hb
  have hstep : l.Fill oid h
      = ((fillLoop l oid l.Orders h l.TotalVolume).1,
         (deleteAll { l with
             TotalVolume := (fillLoop l oid l.Orders h l.TotalVolume).2.2.2 }
           (fillLoop l oid l.Orders h l.TotalVolume).2.1
           (fillLoop l oid l.Orders h l.TotalVolume).2.2.1).1,
         (deleteAll { l with
             TotalVolume := (fillLoop l oid l.Orders h l.TotalVolume).2.2.2 }
           (fillLoop l oid l.Orders h l.TotalVolume).2.1
           (fillLoop l oid l.Orders h l.TotalVolume).2.2.1).2) := by
    simp only [Limit.Fill]
  have D := deleteAll_spec
    { l with
        TotalVolume := (fillLoop l oid l.Orders h l.TotalVolume).2.2.2 }
    (fillLoop l oid l.Orders h l.TotalVolume).2.1
    (fillLoop l oid l.Orders h l.TotalVolume).2.2.1
    hnd L.fsNodup L.fsSub L.fsZero
  rw [hstep]
  dsimp only
  have hsum0 : sumSizes (fillLoop l oid l.Orders h l.TotalVolume).2.2.1
      (fillLoop l oid l.Orders h l.TotalVolume).2.1 = 0 := by
    refine List.sum_eq_zero ?_
    intro x hx
    rcases List.mem_map.mp hx with ⟨i, hi, rfl⟩
    exact L.fsZero i hi
  have hmemdiff : ∀ i, i ∈ (deleteAll { l with
        TotalVolume := (fillLoop l oid l.Orders h l.TotalVolume).2.2.2 }
        (fillLoop l oid l.Orders h l.TotalVolume).2.1
        (fillLoop l oid l.Orders h l.TotalVolume).2.2.1).1.Orders
      ↔ (i ∈ l.Orders ∧ i ∉ (fillLoop l oid l.Orders h l.TotalVolume).2.1) := by
    intro i
    rw [D.perm.mem_iff]
    exact hnd.mem_diff_iff
  refine ⟨D.price, ?_, ?_, ?_, ?_, ?_, ?_, ?_, ?_, ?_, ?_, ?_, ?_⟩
  · intro i hi
    exact ((hmemdiff i).mp hi).1
  · exact D.perm.nodup_iff.mpr (hnd.diff)
  · rw [D.vol]
    have hcongr : sumSizes (deleteAll { l with
          TotalVolume := (fillLoop l oid l.Orders h l.TotalVolume).2.2.2 }
          (fillLoop l oid l.Orders h l.TotalVolume).2.1
          (fillLoop l oid l.Orders h l.TotalVolume).2.2.1).2
        (deleteAll { l with
          TotalVolume := (fillLoop l oid l.Orders h l.TotalVolume).2.2.2 }
          (fillLoop l oid l.Orders h l.TotalVolume).2.1
          (fillLoop l oid l.Orders h l.TotalVolume).2.2.1).1.Orders
        = sumSizes (fillLoop l oid l.Orders h l.TotalVolume).2.2.1
          (deleteAll { l with
            TotalVolume := (fillLoop l oid l.Orders h l.TotalVolume).2.2.2 }
            (fillLoop l oid l.Orders h l.TotalVolume).2.1
            (fillLoop l oid l.Orders h l.TotalVolume).2.2.1).1.Orders :=
      sumSizes_congr fun i _ => D.sizes i
    rw [hcongr, sumSizes_perm _ D.perm,
      sumSizes_diff L.fsSub L.fsNodup, hsum0, L.sumTrack, ← hvol]
    rw [L.volTrack]
    ring
  · intro i hi
    rcases (hmemdiff i).mp hi with ⟨him, hif⟩
    rw [D.sizes i]
    exact L.survivors i him hif
  · intro i hi
    rcases (hmemdiff i).mp hi with ⟨him, hif⟩
    rw [D.untouched i hif]
    exact (L.fields i).2.2.2
  · intro i him hni
    have hif : i ∈ (fillLoop l oid l.Orders h l.TotalVolume).2.1 := by
      by_contra hc
      exact hni ((hmemdiff i).mpr ⟨him, hc⟩)
    exact D.fsNone i hif
  · intro i hi hio
    have hif : i ∉ (fillLoop l oid l.Orders h l.TotalVolume).2.1 :=
      fun hc => hi (L.fsSub hc)
    rw [D.untouched i hif]
    exact L.untouched i hi hio
  · have hif : oid ∉ (fillLoop l oid l.Orders h l.TotalVolume).2.1 :=
      fun hc => hno (L.fsSub hc)
    rw [D.untouched oid hif]
    exact (L.fields oid).2.2.2
  · intro i
    obtain ⟨d1, d2, d3⟩ := D.fields i
    obtain ⟨f1, f2, f3, -⟩ := L.fields i
    exact ⟨d1.trans f1, d2.trans f2, d3.trans f3⟩
  · intro i hi
    rw [D.sizes i]
    by_cases him : i ∈ l.Orders
    · exact L.osNonneg i him
    · by_cases hio : i = oid
      · subst hio
        exact L.oidNonneg
      · rw [L.untouched i him hio]
        exact hi
  · rw [D.sizes oid]
    exact L.oidNonneg
  · exact D.idsEq.trans L.idsEq

/-! ## Book-level helper lemmas -/

theorem sumSizes_append (h : Heap) (xs ys : List Nat) :
    sumSizes h (xs ++ ys) = sumSizes h xs + sumSizes h ys := by
  simp [sumSizes]

theorem LimitWF_congr {h h2 : Heap} {isBid : Bool} {l : Limit} (hw : LimitWF h isBid l)
    (he : ∀ i ∈ l.Orders, heapGet h2 i = heapGet h i) : LimitWF h2 isBid l where
  volEq := by
    rw [hw.volEq]
    exact (sumSizes_congr fun i hi => congrArg Order.Size (he i hi)).symm
  nodup := hw.nodup
  pos i hi := he i hi ▸ hw.pos i hi
  sideOk i hi := he i hi ▸ hw.sideOk i hi
  backref i hi := he i hi ▸ hw.backref i hi

theorem newOrder_heapGet_fresh (b : Orderbook) (bid : Bool) (size : ℤ) :
    heapGet (b.NewOrder bid size).2.heap b.nextId = ⟨b.nextId, size, bid, b.nextId, none⟩ := by
  simp [Orderbook.NewOrder, heapGet]

theorem newOrder_heapGet_ne (b : Orderbook) (bid : Bool) (size : ℤ) {i : Nat}
    (hi : i ≠ b.nextId) : heapGet (b.NewOrder bid size).2.heap i = heapGet b.heap i := by
  simp only [Orderbook.NewOrder, heapGet]
  rw [if_neg]
  omega

theorem newOrder_has_fresh (b : Orderbook) (bid : Bool) (size : ℤ) :
    heapHas (b.NewOrder bid size).2.heap b.nextId :=
  ⟨⟨b.nextId, size, bid, b.nextId, none⟩, List.mem_cons_self _ _, rfl⟩

theorem newOrder_map_ID (b : Orderbook) (bid : Bool) (size : ℤ) :
    (b.NewOrder bid size).2.heap.map Order.ID = b.nextId :: b.heap.map Order.ID := rfl

/-- A level member of a well-formed book has an ID below the allocation
counter. -/
theorem BookWF.mem_lt {b : Orderbook} (hw : BookWF b) {l : Limit}
    (hl : l ∈ b.asks ∨ l ∈ b.bids) {i : Nat} (hi : i ∈ l.Orders) : i < b.nextId := by
  have hwl : LimitWF b.heap (if l ∈ b.asks then false else true) l := by
    split
    · exact hw.asksWF l (by assumption)
    · rcases hl with h | h
      · exact absurd h (by assumption)
      · exact hw.bidsWF l h
  exact hw.has_lt (hwl.memHas hi)

/-- Orders resting in well-formed levels keep their records when a fresh
order is allocated. -/
theorem newOrder_wf {b : Orderbook} (hw : BookWF b) (bid : Bool) {size : ℤ}
    (hs : 0 ≤ size) : BookWF (b.NewOrder bid size).2 where
  asksWF l hl :=
    LimitWF_congr (hw.asksWF l hl) fun i hi =>
      newOrder_heapGet_ne b bid size (Nat.ne_of_lt (hw.mem_lt (Or.inl hl) hi))
  bidsWF l hl :=
    LimitWF_congr (hw.bidsWF l hl) fun i hi =>
      newOrder_heapGet_ne b bid size (Nat.ne_of_lt (hw.mem_lt (Or.inr hl) hi))
  asksNodup := hw.asksNodup
  bidsNodup := hw.bidsNodup
  idNodup := by
    rw [newOrder_map_ID]
    refine List.nodup_cons.mpr ⟨?_, hw.idNodup⟩
    intro hc
    rcases List.mem_map.mp hc with ⟨o, ho, hid⟩
    exact absurd (hid ▸ hw.heapLt o ho) (lt_irrefl b.nextId)
  heapLt := by
    intro o ho
    rcases List.mem_cons.mp ho with rfl | ho
    · simp [Orderbook.NewOrder]
    · exact Nat.lt_succ_of_lt (hw.heapLt o ho)
  nonneg := by
    intro i
    by_cases hi : i = b.nextId
    · subst hi
      rw [newOrder_heapGet_fresh]
      exact hs
    · rw [newOrder_heapGet_ne b bid size hi]
      exact hw.nonneg i
  resting := by
    intro i p hp
    by_cases hi : i = b.nextId
    · subst hi
      rw [newOrder_heapGet_fresh] at hp
      cases hp
    · rw [newOrder_heapGet_ne b bid size hi] at hp ⊢
      exact hw.resting i p hp

theorem heapLt_of_map_ID {h2 h : Heap} {n : Nat} (hid : h2.map Order.ID = h.map Order.ID)
    (hlt : ∀ o ∈ h, o.ID < n) : ∀ o ∈ h2, o.ID < n := by
  intro o ho
  have hmem : o.ID ∈ h.map Order.ID := hid ▸ List.mem_map_of_mem Order.ID ho
  rcases List.mem_map.mp hmem with ⟨o2, ho2, he⟩
  exact he ▸ hlt o2 ho2

/-- Effect of AddOrder on an existing level found by price in a side
slice whose levels are well formed: the updated slice is well formed, the
price multiset is unchanged, the fresh order rests at its level, and all
other residents keep a home level. -/
theorem addOrder_existing_spec {h : Heap} {isBid : Bool} {xs : List Limit}
    {price size : ℤ} {oid ts : Nat}
    (hget : heapGet h oid = ⟨oid, size, isBid, ts, none⟩)
    (hhas : heapHas h oid)
    (hwf : ∀ l2 ∈ xs, LimitWF h isBid l2)
    (hnd : (xs.map Limit.Price).Nodup)
    (hmem : ∀ l2 ∈ xs, oid ∉ l2.Orders)
    (hs : 0 < size)
    {l : Limit} (hfind : findLimit xs price = some l) :
    (∀ l2 ∈ updateLimit xs price (l.AddOrder oid h).1,
        LimitWF (l.AddOrder oid h).2 isBid l2)
    ∧ (updateLimit xs price (l.AddOrder oid h).1).map Limit.Price = xs.map Limit.Price
    ∧ ((l.AddOrder oid h).1 ∈ updateLimit xs price (l.AddOrder oid h).1
        ∧ (l.AddOrder oid h).1.Price = price ∧ oid ∈ (l.AddOrder oid h).1.Orders)
    ∧ (∀ l2 ∈ xs, ∀ i ∈ l2.Orders, i ≠ oid →
        ∃ l3, l3 ∈ updateLimit xs price (l.AddOrder oid h).1
          ∧ l3.Price = l2.Price ∧ i ∈ l3.Orders)
    ∧ heapGet (l.AddOrder oid h).2 oid = ⟨oid, size, isBid, ts, some price⟩
    ∧ (∀ i, i ≠ oid → heapGet (l.AddOrder oid h).2 i = heapGet h i)
    ∧ (l.AddOrder oid h).2.map Order.ID = h.map Order.ID := by
  have hfind2 : List.find? (fun l2 => decide (l2.Price = price)) xs = some l := hfind
  have hlm : l ∈ xs := List.mem_of_find?_eq_some hfind2
  have hlp : l.Price = price := by
    have h3 := List.find?_some hfind2
    simpa using h3
  have hwl : LimitWF h isBid l := hwf l hlm
  have hv : ({ heapGet h oid with LimitPrice := some l.Price } : Order).ID = oid := by
    rw [hget]
  have hgoid : heapGet (l.AddOrder oid h).2 oid
      = ⟨oid, size, isBid, ts, some price⟩ := by
    show heapGet (heapSet h oid _) oid = _
    rw [heapGet_set_self hv hhas, hget, hlp]
  have hgne : ∀ i, i ≠ oid → heapGet (l.AddOrder oid h).2 i = heapGet h i := by
    intro i hi
    show heapGet (heapSet h oid _) i = heapGet h i
    exact heapGet_set_ne hv hi
  have hl1p : (l.AddOrder oid h).1.Price = price := hlp
  have hl1o : (l.AddOrder oid h).1.Orders = l.Orders ++ [oid] := rfl
  have hoidm : oid ∈ (l.AddOrder oid h).1.Orders := by
    rw [hl1o]
    exact List.mem_append_right _ (List.mem_cons_self oid [])
  have hl1mem : (l.AddOrder oid h).1 ∈ updateLimit xs price (l.AddOrder oid h).1 := by
    have h4 := List.mem_map_of_mem
      (fun l3 => if l3.Price = price then (l.AddOrder oid h).1 else l3) hlm
    simp only [if_pos hlp] at h4
    exact h4
  have hl1wf : LimitWF (l.AddOrder oid h).2 isBid (l.AddOrder oid h).1 := by
    refine ⟨?_, ?_, ?_, ?_, ?_⟩
    · show l.TotalVolume + (heapGet h oid).Size = sumSizes _ (l.Orders ++ [oid])
      rw [sumSizes_append, hget]
      have h1 : sumSizes (l.AddOrder oid h).2 l.Orders = sumSizes h l.Orders :=
        sumSizes_congr fun i hi => congrArg Order.Size
          (hgne i fun he => (hmem l hlm) (he ▸ hi))
      have h2 : sumSizes (l.AddOrder oid h).2 [oid] = size := by
        simp [sumSizes, hgoid]
      rw [h1, h2, ← hwl.volEq]
    · rw [hl1o]
      rw [List.nodup_append]
      refine ⟨hwl.nodup, List.nodup_singleton oid, ?_⟩
      intro a ha hc
      rcases List.mem_cons.mp hc with rfl | hc2
      · exact hmem l hlm ha
      · cases hc2
    · intro i hi
      rw [hl1o] at hi
      rcases List.mem_append.mp hi with hi | hi
      · rw [hgne i fun he => (hmem l hlm) (he ▸ hi)]
        exact hwl.pos i hi
      · rcases List.mem_cons.mp hi with rfl | hc
        · rw [hgoid]
          exact hs
        · cases hc
    · intro i hi
      rw [hl1o] at hi
      rcases List.mem_append.mp hi with hi | hi
      · rw [hgne i fun he => (hmem l hlm) (he ▸ hi)]
        exact hwl.sideOk i hi
      · rcases List.mem_cons.mp hi with rfl | hc
        · rw [hgoid]
        · cases hc
    · intro i hi
      rw [hl1o] at hi
      rcases List.mem_append.mp hi with hi | hi
      · rw [hgne i fun he => (hmem l hlm) (he ▸ hi), hl1p, ← hlp]
        exact hwl.backref i hi
      · rcases List.mem_cons.mp hi with rfl | hc
        · rw [hgoid, hl1p]
        · cases hc
  refine ⟨?_, updateLimit_map_price hl1p, ⟨hl1mem, hl1p, hoidm⟩, ?_, hgoid, hgne, ?_⟩
  · intro l2 hl2
    rcases mem_updateLimit hl2 with rfl | ⟨hl2x, hl2p⟩
    · exact hl1wf
    · refine LimitWF_congr (hwf l2 hl2x) fun i hi => hgne i ?_
      intro he
      exact hmem l2 hl2x (he ▸ hi)
  · intro l2 hl2 i hi hio
    by_cases hp2 : l2.Price = price
    · have hleq : l2 = l := by
        have := List.inj_on_of_nodup_map hnd hl2 hlm (by rw [hp2, hlp])
        exact this
      subst hleq
      exact ⟨(l2.AddOrder oid h).1, hl1mem, hl1p.trans hp2.symm,
        by rw [hl1o]; exact List.mem_append_left _ hi⟩
    · exact ⟨l2, mem_updateLimit_ne hl2 hp2, rfl, hi⟩
  · show (heapSet h oid _).map Order.ID = h.map Order.ID
    exact heapSet_map_ID hv

/-- Effect of AddOrder on a freshly created level appended to a side
slice that holds no level of that price. -/
theorem addOrder_new_spec {h : Heap} {isBid : Bool} {xs : List Limit}
    {price size : ℤ} {oid ts : Nat}
    (hget : heapGet h oid = ⟨oid, size, isBid, ts, none⟩)
    (hhas : heapHas h oid)
    (hwf : ∀ l2 ∈ xs, LimitWF h isBid l2)
    (hnd : (xs.map Limit.Price).Nodup)
    (hmem : ∀ l2 ∈ xs, oid ∉ l2.Orders)
    (hs : 0 < size)
    (hfind : findLimit xs price = none) :
    (∀ l2 ∈ xs ++ [((Limit.mk price [] 0).AddOrder oid h).1],
        LimitWF ((Limit.mk price [] 0).AddOrder oid h).2 isBid l2)
    ∧ ((xs ++ [((Limit.mk price [] 0).AddOrder oid h).1]).map Limit.Price).Nodup
    ∧ (((Limit.mk price [] 0).AddOrder oid h).1.Price = price
        ∧ oid ∈ ((Limit.mk price [] 0).AddOrder oid h).1.Orders)
    ∧ heapGet ((Limit.mk price [] 0).AddOrder oid h).2 oid
        = ⟨oid, size, isBid, ts, some price⟩
    ∧ (∀ i, i ≠ oid → heapGet ((Limit.mk price [] 0).AddOrder oid h).2 i = heapGet h i)
    ∧ ((Limit.mk price [] 0).AddOrder oid h).2.map Order.ID = h.map Order.ID := by
  have hv : ({ heapGet h oid with LimitPrice := some price } : Order).ID = oid := by
    rw [hget]
  have hgoid : heapGet ((Limit.mk price [] 0).AddOrder oid h).2 oid
      = ⟨oid, size, isBid, ts, some price⟩ := by
    show heapGet (heapSet h oid _) oid = _
    rw [heapGet_set_self hv hhas, hget]
  have hgne : ∀ i, i ≠ oid →
      heapGet ((Limit.mk price [] 0).AddOrder oid h).2 i = heapGet h i := by
    intro i hi
    show heapGet (heapSet h oid _) i = heapGet h i
    exact heapGet_set_ne hv hi
  have hnew : ((Limit.mk price [] 0).AddOrder oid h).1
      = ⟨price, [oid], 0 + (heapGet h oid).Size⟩ := rfl
  have hfind2 : List.find? (fun l2 => decide (l2.Price = price)) xs = none := hfind
  have hnp : ∀ y ∈ xs, y.Price ≠ price := by
    intro y hy
    have := List.find?_eq_none.mp hfind2 y hy
    simpa using this
  refine ⟨?_, ?_, ⟨rfl, by rw [hnew]; exact List.mem_cons_self oid []⟩, hgoid, hgne, ?_⟩
  · intro l2 hl2
    rcases List.mem_append.mp hl2 with hl2 | hl2
    · refine LimitWF_congr (hwf l2 hl2) fun i hi => hgne i ?_
      intro he
      exact hmem l2 hl2 (he ▸ hi)
    · rcases List.mem_cons.mp hl2 with rfl | hc
      · refine ⟨?_, ?_, ?_, ?_, ?_⟩
        · show 0 + (heapGet h oid).Size = sumSizes _ [oid]
          simp [sumSizes, hgoid, hget]
        · exact List.nodup_singleton oid
        · intro i hi
          rcases List.mem_cons.mp hi with rfl | hc
          · rw [hgoid]
            exact hs
          · cases hc
        · intro i hi
          rcases List.mem_cons.mp hi with rfl | hc
          · rw [hgoid]
          · cases hc
        · intro i hi
          rcases List.mem_cons.mp hi with rfl | hc
          · rw [hgoid]
            rfl
          · cases hc
      · cases hc
  · rw [List.map_append]
    rw [List.nodup_append]
    refine ⟨hnd, by simp, ?_⟩
    intro a ha hc
    rcases List.mem_map.mp ha with ⟨y, hy, rfl⟩
    have : (Limit.mk price [] 0).AddOrder oid h |>.1.Price = price := rfl
    simp only [List.map_cons, List.map_nil] at hc
    rcases List.mem_cons.mp hc with he | hc2
    · exact hnp y hy (he.trans this)
    · cases hc2
  · show (heapSet h oid _).map Order.ID = h.map Order.ID
    exact heapSet_map_ID hv

/-! ## PlaceLimitOrder preserves well-formedness -/

theorem placeLimitStep_wf {b : Orderbook} (hw : BookWF b) (bid : Bool) (price size : ℤ)
    (hs : 0 < size) : BookWF (b.placeLimitStep bid price size) := by
  have hw1 : BookWF (b.NewOrder bid size).2 := newOrder_wf hw bid (le_of_lt hs)
  have ho : heapGet (b.NewOrder bid size).2.heap b.nextId
      = ⟨b.nextId, size, bid, b.nextId, none⟩ := newOrder_heapGet_fresh b bid size
  have hhas : heapHas (b.NewOrder bid size).2.heap b.nextId := newOrder_has_fresh b bid size
  have hmemA : ∀ l2 ∈ (b.NewOrder bid size).2.asks, b.nextId ∉ l2.Orders := by
    intro l2 hl2 hc
    exact absurd (hw.mem_lt (Or.inl hl2) hc) (lt_irrefl _)
  have hmemB : ∀ l2 ∈ (b.NewOrder bid size).2.bids, b.nextId ∉ l2.Orders := by
    intro l2 hl2 hc
    exact absurd (hw.mem_lt (Or.inr hl2) hc) (lt_irrefl _)
  cases bid with
  | false =>
    cases hf : findLimit (b.NewOrder false size).2.asks price with
    | some l =>
      obtain ⟨W, Mp, ⟨hl1m, hl1p, hl1oid⟩, Homes, Hoid, Hne, Hids⟩ :=
        addOrder_existing_spec ho hhas hw1.asksWF hw1.asksNodup hmemA hs hf
      have hr : b.placeLimitStep false price size
          = { (b.NewOrder false size).2 with
              asks := updateLimit (b.NewOrder false size).2.asks price
                (l.AddOrder b.nextId (b.NewOrder false size).2.heap).1,
              heap := (l.AddOrder b.nextId (b.NewOrder false size).2.heap).2,
              Orders := b.nextId :: (b.NewOrder false size).2.Orders } := by
        have hfst : (b.NewOrder false size).1 = b.nextId := rfl
        simp [Orderbook.placeLimitStep, Orderbook.PlaceLimitOrder, hfst, ho, hf]
      rw [hr]
      refine ⟨W, ?_, ?_, hw1.bidsNodup, ?_, ?_, ?_, ?_⟩
      · intro l2 hl2
        refine LimitWF_congr (hw1.bidsWF l2 hl2) fun i hi => Hne i ?_
        intro he
        exact hmemB l2 hl2 (he ▸ hi)
      · show (List.map Limit.Price (updateLimit _ _ _)).Nodup
        rw [Mp]
        exact hw1.asksNodup
      · show (List.map Order.ID _).Nodup
        rw [Hids]
        exact hw1.idNodup
      · exact heapLt_of_map_ID Hids hw1.heapLt
      · intro i
        by_cases hio : i = b.nextId
        · subst hio
          show 0 ≤ (heapGet (l.AddOrder b.nextId (b.NewOrder false size).2.heap).2 b.nextId).Size
          rw [Hoid]
          exact le_of_lt hs
        · show 0 ≤ (heapGet (l.AddOrder b.nextId (b.NewOrder false size).2.heap).2 i).Size
          rw [Hne i hio]
          exact hw1.nonneg i
      · intro i p hp
        by_cases hio : i = b.nextId
        · subst hio
          rw [Hoid] at hp ⊢
          have hpp : p = price := by
            simpa using hp.symm
          subst hpp
          exact ⟨(l.AddOrder b.nextId (b.NewOrder false size).2.heap).1, hl1m, hl1p, hl1oid⟩
        · rw [Hne i hio] at hp ⊢
          rw [newOrder_heapGet_ne b false size hio] at hp ⊢
          obtain ⟨lr, hlr, hlrp, hlri⟩ := hw.resting i p hp
          cases hbid : (heapGet b.heap i).Bid with
          | true =>
            rw [hbid] at hlr
            simp only [if_true] at hlr ⊢
            exact ⟨lr, hlr, hlrp, hlri⟩
          | false =>
            rw [hbid] at hlr
            simp only [Bool.false_eq_true, if_false] at hlr ⊢
            obtain ⟨l3, hl3, hl3p, hl3i⟩ := Homes lr hlr i hlri hio
            exact ⟨l3, hl3, hl3p.trans hlrp, hl3i⟩
    | none =>
      obtain ⟨W, Nd, ⟨hl1p, hl1oid⟩, Hoid, Hne, Hids⟩ :=
        addOrder_new_spec ho hhas hw1.asksWF hw1.asksNodup hmemA hs hf
      have hr : b.placeLimitStep false price size
          = { (b.NewOrder false size).2 with
              asks := (b.NewOrder false size).2.asks
                ++ [((Limit.mk price [] 0).AddOrder b.nextId (b.NewOrder false size).2.heap).1],
              heap := ((Limit.mk price [] 0).AddOrder b.nextId (b.NewOrder false size).2.heap).2,
              Orders := b.nextId :: (b.NewOrder false size).2.Orders } := by
        have hfst : (b.NewOrder false size).1 = b.nextId := rfl
        simp [Orderbook.placeLimitStep, Orderbook.PlaceLimitOrder, hfst, ho, hf]
      rw [hr]
      refine ⟨W, ?_, Nd, hw1.bidsNodup, ?_, ?_, ?_, ?_⟩
      · intro l2 hl2
        refine LimitWF_congr (hw1.bidsWF l2 hl2) fun i hi => Hne i ?_
        intro he
        exact hmemB l2 hl2 (he ▸ hi)
      · show (List.map Order.ID _).Nodup
        rw [Hids]
        exact hw1.idNodup
      · exact heapLt_of_map_ID Hids hw1.heapLt
      · intro i
        by_cases hio : i = b.nextId
        · subst hio
          show 0 ≤ (heapGet ((Limit.mk price [] 0).AddOrder b.nextId (b.NewOrder false size).2.heap).2 b.nextId).Size
          rw [Hoid]
          exact le_of_lt hs
        · show 0 ≤ (heapGet ((Limit.mk price [] 0).AddOrder b.nextId (b.NewOrder false size).2.heap).2 i).Size
          rw [Hne i hio]
          exact hw1.nonneg i
      · intro i p hp
        by_cases hio : i = b.nextId
        · subst hio
          rw [Hoid] at hp ⊢
          have hpp : p = price := by
            simpa using hp.symm
          subst hpp
          refine ⟨((Limit.mk p [] 0).AddOrder b.nextId (b.NewOrder false size).2.heap).1, ?_, hl1p, hl1oid⟩
          exact List.mem_append_right _ (List.mem_cons_self _ _)
        · rw [Hne i hio] at hp ⊢
          rw [newOrder_heapGet_ne b false size hio] at hp ⊢
          obtain ⟨lr, hlr, hlrp, hlri⟩ := hw.resting i p hp
          cases hbid : (heapGet b.heap i).Bid with
          | true =>
            rw [hbid] at hlr
            simp only [if_true] at hlr ⊢
            exact ⟨lr, hlr, hlrp, hlri⟩
          | false =>
            rw [hbid] at hlr
            simp only [Bool.false_eq_true, if_false] at hlr ⊢
            exact ⟨lr, List.mem_append_left _ hlr, hlrp, hlri⟩
  | true =>
    cases hf : findLimit (b.NewOrder true size).2.bids price with
    | some l =>
      obtain ⟨W, Mp, ⟨hl1m, hl1p, hl1oid⟩, Homes, Hoid, Hne, Hids⟩ :=
        addOrder_existing_spec ho hhas hw1.bidsWF hw1.bidsNodup hmemB hs hf
      have hr : b.placeLimitStep true price size
          = { (b.NewOrder true size).2 with
              bids := updateLimit (b.NewOrder true size).2.bids price
                (l.AddOrder b.nextId (b.NewOrder true size).2.heap).1,
              heap := (l.AddOrder b.nextId (b.NewOrder true size).2.heap).2,
              Orders := b.nextId :: (b.NewOrder true size).2.Orders } := by
        have hfst : (b.NewOrder true size).1 = b.nextId := rfl
        simp [Orderbook.placeLimitStep, Orderbook.PlaceLimitOrder, hfst, ho, hf]
      rw [hr]
      refine ⟨?_, W, hw1.asksNodup, ?_, ?_, ?_, ?_, ?_⟩
      · intro l2 hl2
        refine LimitWF_congr (hw1.asksWF l2 hl2) fun i hi => Hne i ?_
        intro he
        exact hmemA l2 hl2 (he ▸ hi)
      · show (List.map Limit.Price (updateLimit _ _ _)).Nodup
        rw [Mp]
        exact hw1.bidsNodup
      · show (List.map Order.ID _).Nodup
        rw [Hids]
        exact hw1.idNodup
      · exact heapLt_of_map_ID Hids hw1.heapLt
      · intro i
        by_cases hio : i = b.nextId
        · subst hio
          show 0 ≤ (heapGet (l.AddOrder b.nextId (b.NewOrder true size).2.heap).2 b.nextId).Size
          rw [Hoid]
          exact le_of_lt hs
        · show 0 ≤ (heapGet (l.AddOrder b.nextId (b.NewOrder true size).2.heap).2 i).Size
          rw [Hne i hio]
          exact hw1.nonneg i
      · intro i p hp
        by_cases hio : i = b.nextId
        · subst hio
          rw [Hoid] at hp ⊢
          have hpp : p = price := by
            simpa using hp.symm
          subst hpp
          exact ⟨(l.AddOrder b.nextId (b.NewOrder true size).2.heap).1, hl1m, hl1p, hl1oid⟩
        · rw [Hne i hio] at hp ⊢
          rw [newOrder_heapGet_ne b true size hio] at hp ⊢
          obtain ⟨lr, hlr, hlrp, hlri⟩ := hw.resting i p hp
          cases hbid : (heapGet b.heap i).Bid with
          | false =>
            rw [hbid] at hlr
            simp only [Bool.false_eq_true, if_false] at hlr ⊢
            exact ⟨lr, hlr, hlrp, hlri⟩
          | true =>
            rw [hbid] at hlr
            simp only [if_true] at hlr ⊢
            obtain ⟨l3, hl3, hl3p, hl3i⟩ := Homes lr hlr i hlri hio
            exact ⟨l3, hl3, hl3p.trans hlrp, hl3i⟩
    | none =>
      obtain ⟨W, Nd, ⟨hl1p, hl1oid⟩, Hoid, Hne, Hids⟩ :=
        addOrder_new_spec ho hhas hw1.bidsWF hw1.bidsNodup hmemB hs hf
      have hr : b.placeLimitStep true price size
          = { (b.NewOrder true size).2 with
              bids := (b.NewOrder true size).2.bids
                ++ [((Limit.mk price [] 0).AddOrder b.nextId (b.NewOrder true size).2.heap).1],
              heap := ((Limit.mk price [] 0).AddOrder b.nextId (b.NewOrder true size).2.heap).2,
              Orders := b.nextId :: (b.NewOrder true size).2.Orders } := by
        have hfst : (b.NewOrder true size).1 = b.nextId := rfl
        simp [Orderbook.placeLimitStep, Orderbook.PlaceLimitOrder, hfst, ho, hf]
      rw [hr]
      refine ⟨?_, W, hw1.asksNodup, Nd, ?_, ?_, ?_, ?_⟩
      · intro l2 hl2
        refine LimitWF_congr (hw1.asksWF l2 hl2) fun i hi => Hne i ?_
        intro he
        exact hmemA l2 hl2 (he ▸ hi)
      · show (List.map Order.ID _).Nodup
        rw [Hids]
        exact hw1.idNodup
      · exact heapLt_of_map_ID Hids hw1.heapLt
      · intro i
        by_cases hio : i = b.nextId
        · subst hio
          show 0 ≤ (heapGet ((Limit.mk price [] 0).AddOrder b.nextId (b.NewOrder true size).2.heap).2 b.nextId).Size
          rw [Hoid]
          exact le_of_lt hs
        · show 0 ≤ (heapGet ((Limit.mk price [] 0).AddOrder b.nextId (b.NewOrder true size).2.heap).2 i).Size
          rw [Hne i hio]
          exact hw1.nonneg i
      · intro i p hp
        by_cases hio : i = b.nextId
        · subst hio
          rw [Hoid] at hp ⊢
          have hpp : p = price := by
            simpa using hp.symm
          subst hpp
          refine ⟨((Limit.mk p [] 0).AddOrder b.nextId (b.NewOrder true size).2.heap).1, ?_, hl1p, hl1oid⟩
          exact List.mem_append_right _ (List.mem_cons_self _ _)
        · rw [Hne i hio] at hp ⊢
          rw [newOrder_heapGet_ne b true size hio] at hp ⊢
          obtain ⟨lr, hlr, hlrp, hlri⟩ := hw.resting i p hp
          cases hbid : (heapGet b.heap i).Bid with
          | false =>
            rw [hbid] at hlr
            simp only [Bool.false_eq_true, if_false] at hlr ⊢
            exact ⟨lr, hlr, hlrp, hlri⟩
          | true =>
            rw [hbid] at hlr
            simp only [if_true] at hlr ⊢
            exact ⟨lr, List.mem_append_left _ hlr, hlrp, hlri⟩

/-! ## CancelOrder preserves well-formedness -/

theorem cancelOrder_wf {b : Orderbook} (hw : BookWF b) {oid : Nat} {p : ℤ}
    (hp : (heapGet b.heap oid).LimitPrice = some p) : BookWF (b.CancelOrder oid) := by
  obtain ⟨l, hl0, hlp, hloid⟩ := hw.resting oid p hp
  rcases Bool.eq_false_or_eq_true (heapGet b.heap oid).Bid with hbid | hbid
  · rw [hbid] at hl0
    simp only [if_true] at hl0
    obtain ⟨s, t, hxs, hsne, htne⟩ := exists_price_decomp hl0 hw.bidsNodup
    have hsne2 : ∀ y ∈ s, y.Price ≠ p := fun y hy => hlp ▸ hsne y hy
    have htne2 : ∀ y ∈ t, y.Price ≠ p := fun y hy => hlp ▸ htne y hy
    have hfind : findLimit b.bids p = some l := by
      rw [hxs, ← hlp]
      exact findLimit_decomp hsne
    obtain ⟨dperm, dvol, dprice, dne, dsz, dbid, dts, did, dnone, dids⟩ :=
      DeleteOrder_spec l oid b.heap hloid (hw.bidsWF l hl0).nodup
    have hsz : ∀ i, (heapGet (l.DeleteOrder oid b.heap).2 i).Size
        = (heapGet b.heap i).Size := by
      intro i
      by_cases hio : i = oid
      · subst hio
        exact dsz
      · rw [dne i hio]
    have hL2 : LimitWF (l.DeleteOrder oid b.heap).2 true (l.DeleteOrder oid b.heap).1 := by
      have hlw := hw.bidsWF l hl0
      have hmem2 : ∀ i, i ∈ (l.DeleteOrder oid b.heap).1.Orders → i ≠ oid ∧ i ∈ l.Orders :=
        fun i hi => (List.Nodup.mem_erase_iff hlw.nodup).mp (dperm.mem_iff.mp hi)
      refine ⟨?_, dperm.nodup_iff.mpr (hlw.nodup.erase oid), ?_, ?_, ?_⟩
      · rw [dvol, hlw.volEq, sumSizes_erase hloid,
          sumSizes_perm _ dperm, sumSizes_congr fun i _ => hsz i]
        ring
      · intro i hi
        obtain ⟨hne, him⟩ := hmem2 i hi
        rw [dne i hne]
        exact hlw.pos i him
      · intro i hi
        obtain ⟨hne, him⟩ := hmem2 i hi
        rw [dne i hne]
        exact hlw.sideOk i him
      · intro i hi
        obtain ⟨hne, him⟩ := hmem2 i hi
        rw [dne i hne, dprice]
        exact hlw.backref i him
    have hne_bid : ∀ y, y ∈ b.bids → y.Price ≠ p → ∀ i ∈ y.Orders, i ≠ oid := by
      intro y hy hyp i hi he
      subst he
      have hbr := (hw.bidsWF y hy).backref i hi
      rw [hp] at hbr
      exact hyp (Option.some.inj hbr).symm
    have hne_ask : ∀ y, y ∈ b.asks → ∀ i ∈ y.Orders, i ≠ oid := by
      intro y hy i hi he
      subst he
      have hso := (hw.asksWF y hy).sideOk i hi
      rw [hbid] at hso
      exact Bool.noConfusion hso
    have hOther : ∀ y, y ∈ b.bids → y.Price ≠ p →
        LimitWF (l.DeleteOrder oid b.heap).2 true y :=
      fun y hy hyp => LimitWF_congr (hw.bidsWF y hy) fun i hi => dne i (hne_bid y hy hyp i hi)
    have hAsks : ∀ y, y ∈ b.asks → LimitWF (l.DeleteOrder oid b.heap).2 false y :=
      fun y hy => LimitWF_congr (hw.asksWF y hy) fun i hi => dne i (hne_ask y hy i hi)
    have hupd : updateLimit b.bids p (l.DeleteOrder oid b.heap).1
        = s ++ (l.DeleteOrder oid b.heap).1 :: t := by
      rw [hxs]
      exact updateLimit_decomp hsne2 htne2 hlp
    by_cases hnil : (l.DeleteOrder oid b.heap).1.Orders = []
    · have hr : b.CancelOrder oid
          = { b with
              bids := goSwapRemove (fun y => decide (y.Price = p))
                (updateLimit b.bids p (l.DeleteOrder oid b.heap).1),
              heap := (l.DeleteOrder oid b.heap).2,
              Orders := b.Orders.filter (fun x => !(x == oid)) } := by
        simp [Orderbook.CancelOrder, Orderbook.DeleteLimit, hp, hbid, hfind, hnil]
      have gperm : List.Perm (goSwapRemove (fun y => decide (y.Price = p))
          (updateLimit b.bids p (l.DeleteOrder oid b.heap).1)) (s ++ t) := by
        rw [hupd]
        exact goSwapRemoveLimit_perm t hsne2 (dprice.trans hlp)
      have hmem_st : ∀ y, y ∈ s ++ t → y ∈ b.bids ∧ y.Price ≠ p := by
        intro y hy
        rcases List.mem_append.mp hy with hy | hy
        · exact ⟨by rw [hxs]; exact List.mem_append_left _ hy, hsne2 y hy⟩
        · exact ⟨by rw [hxs]; exact List.mem_append_right _ (List.mem_cons_of_mem _ hy),
            htne2 y hy⟩
      rw [hr]
      refine ⟨fun y hy => hAsks y hy, ?_, hw.asksNodup, ?_, ?_, ?_, ?_, ?_⟩
      · intro y hy
        obtain ⟨hyb, hyp⟩ := hmem_st y (gperm.mem_iff.mp hy)
        exact hOther y hyb hyp
      · refine ((gperm.map Limit.Price).nodup_iff).mpr ?_
        have hall : (List.map Limit.Price (s ++ l :: t)).Nodup := by
          rw [← hxs]
          exact hw.bidsNodup
        have hmid : (l.Price :: (List.map Limit.Price s ++ List.map Limit.Price t)).Nodup := by
          rw [← List.nodup_middle]
          simpa using hall
        have hst := (List.nodup_cons.mp hmid).2
        simpa using hst
      · show ((l.DeleteOrder oid b.heap).2.map Order.ID).Nodup
        rw [dids]
        exact hw.idNodup
      · exact heapLt_of_map_ID dids hw.heapLt
      · intro i
        show 0 ≤ (heapGet (l.DeleteOrder oid b.heap).2 i).Size
        rw [hsz i]
        exact hw.nonneg i
      · intro i q hq
        by_cases hio : i = oid
        · subst hio
          rw [dnone] at hq
          exact Option.noConfusion hq
        · rw [dne i hio] at hq ⊢
          obtain ⟨lr, hlr, hlrq, hlri⟩ := hw.resting i q hq
          rcases Bool.eq_false_or_eq_true (heapGet b.heap i).Bid with hbid2 | hbid2
          · rw [hbid2] at hlr ⊢
            simp only [if_true] at hlr ⊢
            by_cases hlrp : lr.Price = p
            · have hle : lr = l :=
                List.inj_on_of_nodup_map hw.bidsNodup hlr hl0 (by rw [hlrp, hlp])
              have hlri2 : i ∈ l.Orders := hle ▸ hlri
              have hi2 : i ∈ (l.DeleteOrder oid b.heap).1.Orders :=
                dperm.mem_iff.mpr ((List.mem_erase_of_ne hio).mpr hlri2)
              rw [hnil] at hi2
              exact absurd hi2 (List.not_mem_nil i)
            · refine ⟨lr, gperm.mem_iff.mpr ?_, hlrq, hlri⟩
              rw [hxs] at hlr
              rcases List.mem_append.mp hlr with h1 | h1
              · exact List.mem_append_left _ h1
              · rcases List.mem_cons.mp h1 with rfl | h1
                · exact absurd hlp hlrp
                · exact List.mem_append_right _ h1
          · rw [hbid2] at hlr ⊢
            simp only [Bool.false_eq_true, if_false] at hlr ⊢
            exact ⟨lr, hlr, hlrq, hlri⟩
    · have hr : b.CancelOrder oid
          = { b with
              bids := updateLimit b.bids p (l.DeleteOrder oid b.heap).1,
              heap := (l.DeleteOrder oid b.heap).2,
              Orders := b.Orders.filter (fun x => !(x == oid)) } := by
        simp [Orderbook.CancelOrder, hp, hbid, hfind, hnil]
      rw [hr]
      refine ⟨fun y hy => hAsks y hy, ?_, hw.asksNodup, ?_, ?_, ?_, ?_, ?_⟩
      · intro y hy
        rcases mem_updateLimit hy with rfl | ⟨hyb, hyp⟩
        · exact hL2
        · exact hOther y hyb hyp
      · show ((updateLimit b.bids p (l.DeleteOrder oid b.heap).1).map Limit.Price).Nodup
        rw [updateLimit_map_price (dprice.trans hlp)]
        exact hw.bidsNodup
      · show ((l.DeleteOrder oid b.heap).2.map Order.ID).Nodup
        rw [dids]
        exact hw.idNodup
      · exact heapLt_of_map_ID dids hw.heapLt
      · intro i
        show 0 ≤ (heapGet (l.DeleteOrder oid b.heap).2 i).Size
        rw [hsz i]
        exact hw.nonneg i
      · intro i q hq
        by_cases hio : i = oid
        · subst hio
          rw [dnone] at hq
          exact Option.noConfusion hq
        · rw [dne i hio] at hq ⊢
          obtain ⟨lr, hlr, hlrq, hlri⟩ := hw.resting i q hq
          rcases Bool.eq_false_or_eq_true (heapGet b.heap i).Bid with hbid2 | hbid2
          · rw [hbid2] at hlr ⊢
            simp only [if_true] at hlr ⊢
            by_cases hlrp : lr.Price = p
            · have hle : lr = l :=
                List.inj_on_of_nodup_map hw.bidsNodup hlr hl0 (by rw [hlrp, hlp])
              have hlri2 : i ∈ l.Orders := hle ▸ hlri
              refine ⟨(l.DeleteOrder oid b.heap).1, ?_, ?_,
                dperm.mem_iff.mpr ((List.mem_erase_of_ne hio).mpr hlri2)⟩
              · rw [hupd]
                exact List.mem_append_right _ (List.mem_cons_self _ _)
              · rw [dprice, ← hle]
                exact hlrq
            · exact ⟨lr, mem_updateLimit_ne hlr hlrp, hlrq, hlri⟩
          · rw [hbid2] at hlr ⊢
            simp only [Bool.false_eq_true, if_false] at hlr ⊢
            exact ⟨lr, hlr, hlrq, hlri⟩
  · rw [hbid] at hl0
    simp only [Bool.false_eq_true, if_false] at hl0
    obtain ⟨s, t, hxs, hsne, htne⟩ := exists_price_decomp hl0 hw.asksNodup
    have hsne2 : ∀ y ∈ s, y.Price ≠ p := fun y hy => hlp ▸ hsne y hy
    have htne2 : ∀ y ∈ t, y.Price ≠ p := fun y hy => hlp ▸ htne y hy
    have hfind : findLimit b.asks p = some l := by
      rw [hxs, ← hlp]
      exact findLimit_decomp hsne
    obtain ⟨dperm, dvol, dprice, dne, dsz, dbid, dts, did, dnone, dids⟩ :=
      DeleteOrder_spec l oid b.heap hloid (hw.asksWF l hl0).nodup
    have hsz : ∀ i, (heapGet (l.DeleteOrder oid b.heap).2 i).Size
        = (heapGet b.heap i).Size := by
      intro i
      by_cases hio : i = oid
      · subst hio
        exact dsz
      · rw [dne i hio]
    have hL2 : LimitWF (l.DeleteOrder oid b.heap).2 false (l.DeleteOrder oid b.heap).1 := by
      have hlw := hw.asksWF l hl0
      have hmem2 : ∀ i, i ∈ (l.DeleteOrder oid b.heap).1.Orders → i ≠ oid ∧ i ∈ l.Orders :=
        fun i hi => (List.Nodup.mem_erase_iff hlw.nodup).mp (dperm.mem_iff.mp hi)
      refine ⟨?_, dperm.nodup_iff.mpr (hlw.nodup.erase oid), ?_, ?_, ?_⟩
      · rw [dvol, hlw.volEq, sumSizes_erase hloid,
          sumSizes_perm _ dperm, sumSizes_congr fun i _ => hsz i]
        ring
      · intro i hi
        obtain ⟨hne, him⟩ := hmem2 i hi
        rw [dne i hne]
        exact hlw.pos i him
      · intro i hi
        obtain ⟨hne, him⟩ := hmem2 i hi
        rw [dne i hne]
        exact hlw.sideOk i him
      · intro i hi
        obtain ⟨hne, him⟩ := hmem2 i hi
        rw [dne i hne, dprice]
        exact hlw.backref i him
    have hne_ask : ∀ y, y ∈ b.asks → y.Price ≠ p → ∀ i ∈ y.Orders, i ≠ oid := by
      intro y hy hyp i hi he
      subst he
      have hbr := (hw.asksWF y hy).backref i hi
      rw [hp] at hbr
      exact hyp (Option.some.inj hbr).symm
    have hne_bid : ∀ y, y ∈ b.bids → ∀ i ∈ y.Orders, i ≠ oid := by
      intro y hy i hi he
      subst he
      have hso := (hw.bidsWF y hy).sideOk i hi
      rw [hbid] at hso
      exact Bool.noConfusion hso
    have hOther : ∀ y, y ∈ b.asks → y.Price ≠ p →
        LimitWF (l.DeleteOrder oid b.heap).2 false y :=
      fun y hy hyp => LimitWF_congr (hw.asksWF y hy) fun i hi => dne i (hne_ask y hy hyp i hi)
    have hBids : ∀ y, y ∈ b.bids → LimitWF (l.DeleteOrder oid b.heap).2 true y :=
      fun y hy => LimitWF_congr (hw.bidsWF y hy) fun i hi => dne i (hne_bid y hy i hi)
    have hupd : updateLimit b.asks p (l.DeleteOrder oid b.heap).1
        = s ++ (l.DeleteOrder oid b.heap).1 :: t := by
      rw [hxs]
      exact updateLimit_decomp hsne2 htne2 hlp
    by_cases hnil : (l.DeleteOrder oid b.heap).1.Orders = []
    · have hr : b.CancelOrder oid
          = { b with
              asks := goSwapRemove (fun y => decide (y.Price = p))
                (updateLimit b.asks p (l.DeleteOrder oid b.heap).1),
              heap := (l.DeleteOrder oid b.heap).2,
              Orders := b.Orders.filter (fun x => !(x == oid)) } := by
        simp [Orderbook.CancelOrder, Orderbook.DeleteLimit, hp, hbid, hfind, hnil]
      have gperm : List.Perm (goSwapRemove (fun y => decide (y.Price = p))
          (updateLimit b.asks p (l.DeleteOrder oid b.heap).1)) (s ++ t) := by
        rw [hupd]
        exact goSwapRemoveLimit_perm t hsne2 (dprice.trans hlp)
      have hmem_st : ∀ y, y ∈ s ++ t → y ∈ b.asks ∧ y.Price ≠ p := by
        intro y hy
        rcases List.mem_append.mp hy with hy | hy
        · exact ⟨by rw [hxs]; exact List.mem_append_left _ hy, hsne2 y hy⟩
        · exact ⟨by rw [hxs]; exact List.mem_append_right _ (List.mem_cons_of_mem _ hy),
            htne2 y hy⟩
      rw [hr]
      refine ⟨?_, fun y hy => hBids y hy, ?_, hw.bidsNodup, ?_, ?_, ?_, ?_⟩
      · intro y hy
        obtain ⟨hyb, hyp⟩ := hmem_st y (gperm.mem_iff.mp hy)
        exact hOther y hyb hyp
      · refine ((gperm.map Limit.Price).nodup_iff).mpr ?_
        have hall : (List.map Limit.Price (s ++ l :: t)).Nodup := by
          rw [← hxs]
          exact hw.asksNodup
        have hmid : (l.Price :: (List.map Limit.Price s ++ List.map Limit.Price t)).Nodup := by
          rw [← List.nodup_middle]
          simpa using hall
        have hst := (List.nodup_cons.mp hmid).2
        simpa using hst
      · show ((l.DeleteOrder oid b.heap).2.map Order.ID).Nodup
        rw [dids]
        exact hw.idNodup
      · exact heapLt_of_map_ID dids hw.heapLt
      · intro i
        show 0 ≤ (heapGet (l.DeleteOrder oid b.heap).2 i).Size
        rw [hsz i]
        exact hw.nonneg i
      · intro i q hq
        by_cases hio : i = oid
        · subst hio
          rw [dnone] at hq
          exact Option.noConfusion hq
        · rw [dne i hio] at hq ⊢
          obtain ⟨lr, hlr, hlrq, hlri⟩ := hw.resting i q hq
          rcases Bool.eq_false_or_eq_true (heapGet b.heap i).Bid with hbid2 | hbid2
          · rw [hbid2] at hlr ⊢
            simp only [if_true] at hlr ⊢
            exact ⟨lr, hlr, hlrq, hlri⟩
          · rw [hbid2] at hlr ⊢
            simp only [Bool.false_eq_true, if_false] at hlr ⊢
            by_cases hlrp : lr.Price = p
            · have hle : lr = l :=
                List.inj_on_of_nodup_map hw.asksNodup hlr hl0 (by rw [hlrp, hlp])
              have hlri2 : i ∈ l.Orders := hle ▸ hlri
              have hi2 : i ∈ (l.DeleteOrder oid b.heap).1.Orders :=
                dperm.mem_iff.mpr ((List.mem_erase_of_ne hio).mpr hlri2)
              rw [hnil] at hi2
              exact absurd hi2 (List.not_mem_nil i)
            · refine ⟨lr, gperm.mem_iff.mpr ?_, hlrq, hlri⟩
              rw [hxs] at hlr
              rcases List.mem_append.mp hlr with h1 | h1
              · exact List.mem_append_left _ h1
              · rcases List.mem_cons.mp h1 with rfl | h1
                · exact absurd hlp hlrp
                · exact List.mem_append_right _ h1
    · have hr : b.CancelOrder oid
          = { b with
              asks := updateLimit b.asks p (l.DeleteOrder oid b.heap).1,
              heap := (l.DeleteOrder oid b.heap).2,
              Orders := b.Orders.filter (fun x => !(x == oid)) } := by
        simp [Orderbook.CancelOrder, hp, hbid, hfind, hnil]
      rw [hr]
      refine ⟨?_, fun y hy => hBids y hy, ?_, hw.bidsNodup, ?_, ?_, ?_, ?_⟩
      · intro y hy
        rcases mem_updateLimit hy with rfl | ⟨hyb, hyp⟩
        · exact hL2
        · exact hOther y hyb hyp
      · show ((updateLimit b.asks p (l.DeleteOrder oid b.heap).1).map Limit.Price).Nodup
        rw [updateLimit_map_price (dprice.trans hlp)]
        exact hw.asksNodup
      · show ((l.DeleteOrder oid b.heap).2.map Order.ID).Nodup
        rw [dids]
        exact hw.idNodup
      · exact heapLt_of_map_ID dids hw.heapLt
      · intro i
        show 0 ≤ (heapGet (l.DeleteOrder oid b.heap).2 i).Size
        rw [hsz i]
        exact hw.nonneg i
      · intro i q hq
        by_cases hio : i = oid
        · subst hio
          rw [dnone] at hq
          exact Option.noConfusion hq
        · rw [dne i hio] at hq ⊢
          obtain ⟨lr, hlr, hlrq, hlri⟩ := hw.resting i q hq
          rcases Bool.eq_false_or_eq_true (heapGet b.heap i).Bid with hbid2 | hbid2
          · rw [hbid2] at hlr ⊢
            simp only [if_true] at hlr ⊢
            exact ⟨lr, hlr, hlrq, hlri⟩
          · rw [hbid2] at hlr ⊢
            simp only [Bool.false_eq_true, if_false] at hlr ⊢
            by_cases hlrp : lr.Price = p
            · have hle : lr = l :=
                List.inj_on_of_nodup_map hw.asksNodup hlr hl0 (by rw [hlrp, hlp])
              have hlri2 : i ∈ l.Orders := hle ▸ hlri
              refine ⟨(l.DeleteOrder oid b.heap).1, ?_, ?_,
                dperm.mem_iff.mpr ((List.mem_erase_of_ne hio).mpr hlri2)⟩
              · rw [hupd]
                exact List.mem_append_right _ (List.mem_cons_self _ _)
              · rw [dprice, ← hle]
                exact hlrq
            · exact ⟨lr, mem_updateLimit_ne hlr hlrp, hlrq, hlri⟩

/-! ## PlaceMarkerOrder preserves well-formedness -/

theorem sortAsks_wf {b : Orderbook} (hw : BookWF b) :
    BookWF { b with asks := sortAsksList b.asks } := by
  have hperm := sortAsksList_perm b.asks
  refine ⟨?_, hw.bidsWF, ?_, hw.bidsNodup, hw.idNodup, hw.heapLt, hw.nonneg, ?_⟩
  · intro l hl
    exact hw.asksWF l (hperm.mem_iff.mp hl)
  · exact ((hperm.map Limit.Price).nodup_iff).mpr hw.asksNodup
  · intro i p hp
    obtain ⟨lr, hlr, hlrp, hlri⟩ := hw.resting i p hp
    rcases Bool.eq_false_or_eq_true (heapGet b.heap i).Bid with hbid2 | hbid2
    · rw [hbid2] at hlr ⊢
      simp only [if_true] at hlr ⊢
      exact ⟨lr, hlr, hlrp, hlri⟩
    · rw [hbid2] at hlr ⊢
      simp only [Bool.false_eq_true, if_false] at hlr ⊢
      exact ⟨lr, hperm.mem_iff.mpr hlr, hlrp, hlri⟩

theorem sortBids_wf {b : Orderbook} (hw : BookWF b) :
    BookWF { b with bids := sortBidsList b.bids } := by
  have hperm := sortBidsList_perm b.bids
  refine ⟨hw.asksWF, ?_, hw.asksNodup, ?_, hw.idNodup, hw.heapLt, hw.nonneg, ?_⟩
  · intro l hl
    exact hw.bidsWF l (hperm.mem_iff.mp hl)
  · exact ((hperm.map Limit.Price).nodup_iff).mpr hw.bidsNodup
  · intro i p hp
    obtain ⟨lr, hlr, hlrp, hlri⟩ := hw.resting i p hp
    rcases Bool.eq_false_or_eq_true (heapGet b.heap i).Bid with hbid2 | hbid2
    · rw [hbid2] at hlr ⊢
      simp only [if_true] at hlr ⊢
      exact ⟨lr, hperm.mem_iff.mpr hlr, hlrp, hlri⟩
    · rw [hbid2] at hlr ⊢
      simp only [Bool.false_eq_true, if_false] at hlr ⊢
      exact ⟨lr, hlr, hlrp, hlri⟩

theorem marketLoop_inv (oid : Nat) (c : Bool) (ps : List ℤ) (b : Orderbook)
    (hw : BookWF b) (hnn : 0 ≤ (heapGet b.heap oid).Size)
    (hnone : (heapGet b.heap oid).LimitPrice = none) :
    BookWF (marketLoop oid c ps b).2
    ∧ 0 ≤ (heapGet (marketLoop oid c ps b).2.heap oid).Size
    ∧ (heapGet (marketLoop oid c ps b).2.heap oid).LimitPrice = none := by
  induction ps generalizing b with
  | nil => exact ⟨hw, hnn, hnone⟩
  | cons q ps ih =>
    cases c with
    | true =>
      cases hf : findLimit b.bids q with
      | none =>
        have hstep : marketLoop oid true (q :: ps) b = marketLoop oid true ps b := by
          simp [marketLoop, hf]
        rw [hstep]
        exact ih b hw hnn hnone
      | some l =>
        have hf2 : b.bids.find? (fun y => decide (y.Price = q)) = some l := hf
        have hl : l ∈ b.bids := List.mem_of_find?_eq_some hf2
        have hlq : l.Price = q := by simpa using List.find?_some hf2
        have hlw := hw.bidsWF l hl
        have hno : oid ∉ l.Orders := by
          intro hc
          have hbr := hlw.backref oid hc
          rw [hnone] at hbr
          exact Option.noConfusion hbr
        obtain F := Fill_spec l oid b.heap hlw.volEq hlw.nodup hlw.pos hno hnn
        have hfree : ∀ y, y ∈ b.bids → y.Price ≠ q → ∀ i ∈ y.Orders,
            i ∉ l.Orders ∧ i ≠ oid := by
          intro y hy hyp i hi
          have hbr := (hw.bidsWF y hy).backref i hi
          constructor
          · intro hc
            have hbr2 := hlw.backref i hc
            rw [hbr] at hbr2
            exact hyp ((Option.some.inj hbr2).trans hlq)
          · intro hc
            subst hc
            rw [hnone] at hbr
            exact Option.noConfusion hbr
        have hfreeA : ∀ y, y ∈ b.asks → ∀ i ∈ y.Orders, i ∉ l.Orders ∧ i ≠ oid := by
          intro y hy i hi
          have hbr := (hw.asksWF y hy).backref i hi
          have hso := (hw.asksWF y hy).sideOk i hi
          constructor
          · intro hc
            have hso2 := hlw.sideOk i hc
            rw [hso] at hso2
            exact Bool.noConfusion hso2
          · intro hc
            subst hc
            rw [hnone] at hbr
            exact Option.noConfusion hbr
        have hOther : ∀ y, y ∈ b.bids → y.Price ≠ q →
            LimitWF (l.Fill oid b.heap).2.2 true y := by
          intro y hy hyp
          refine LimitWF_congr (hw.bidsWF y hy) fun i hi => ?_
          obtain ⟨h1, h2⟩ := hfree y hy hyp i hi
          exact F.untouched i h1 h2
        have hAsks : ∀ y, y ∈ b.asks → LimitWF (l.Fill oid b.heap).2.2 false y := by
          intro y hy
          refine LimitWF_congr (hw.asksWF y hy) fun i hi => ?_
          obtain ⟨h1, h2⟩ := hfreeA y hy i hi
          exact F.untouched i h1 h2
        have hL2 : LimitWF (l.Fill oid b.heap).2.2 true (l.Fill oid b.heap).2.1 := by
          refine ⟨F.volEq, F.nodup, F.pos, ?_, ?_⟩
          · intro i hi
            rw [(F.fields i).2.1]
            exact hlw.sideOk i (F.ordSub i hi)
          · intro i hi
            rw [F.backrefKeep i hi, F.price]
            exact hlw.backref i (F.ordSub i hi)
        have hnn2 : 0 ≤ (heapGet (l.Fill oid b.heap).2.2 oid).Size := F.oidNonneg
        have hnone2 : (heapGet (l.Fill oid b.heap).2.2 oid).LimitPrice = none := by
          rw [F.oidBackref]
          exact hnone
        obtain ⟨s, t, hxs, hsne, htne⟩ := exists_price_decomp hl hw.bidsNodup
        have hsne2 : ∀ y ∈ s, y.Price ≠ q := fun y hy => hlq ▸ hsne y hy
        have htne2 : ∀ y ∈ t, y.Price ≠ q := fun y hy => hlq ▸ htne y hy
        have hupd : updateLimit b.bids q (l.Fill oid b.heap).2.1
            = s ++ (l.Fill oid b.heap).2.1 :: t := by
          rw [hxs]
          exact updateLimit_decomp hsne2 htne2 hlq
        by_cases hnil : (l.Fill oid b.heap).2.1.Orders = []
        · have hstep : (marketLoop oid true (q :: ps) b).2
              = (marketLoop oid true ps
                  { b with
                    bids := goSwapRemove (fun y => decide (y.Price = q))
                      (updateLimit b.bids q (l.Fill oid b.heap).2.1),
                    heap := (l.Fill oid b.heap).2.2 }).2 := by
            simp [marketLoop, hf, hnil, Orderbook.DeleteLimit]
          rw [hstep]
          have gperm : List.Perm (goSwapRemove (fun y => decide (y.Price = q))
              (updateLimit b.bids q (l.Fill oid b.heap).2.1)) (s ++ t) := by
            rw [hupd]
            exact goSwapRemoveLimit_perm t hsne2 (F.price.trans hlq)
          have hmem_st : ∀ y, y ∈ s ++ t → y ∈ b.bids ∧ y.Price ≠ q := by
            intro y hy
            rcases List.mem_append.mp hy with hy | hy
            · exact ⟨by rw [hxs]; exact List.mem_append_left _ hy, hsne2 y hy⟩
            · exact ⟨by rw [hxs]; exact List.mem_append_right _ (List.mem_cons_of_mem _ hy),
                htne2 y hy⟩
          refine ih _ ⟨fun y hy => hAsks y hy, ?_, hw.asksNodup, ?_, ?_, ?_, ?_, ?_⟩ hnn2 hnone2
          · intro y hy
            obtain ⟨hyb, hyp⟩ := hmem_st y (gperm.mem_iff.mp hy)
            exact hOther y hyb hyp
          · refine ((gperm.map Limit.Price).nodup_iff).mpr ?_
            have hall : (List.map Limit.Price (s ++ l :: t)).Nodup := by
              rw [← hxs]
              exact hw.bidsNodup
            have hmid : (l.Price :: (List.map Limit.Price s
                ++ List.map Limit.Price t)).Nodup := by
              rw [← List.nodup_middle]
              simpa using hall
            have hst := (List.nodup_cons.mp hmid).2
            simpa using hst
          · show ((l.Fill oid b.heap).2.2.map Order.ID).Nodup
            rw [F.idsEq]
            exact hw.idNodup
          · exact heapLt_of_map_ID F.idsEq hw.heapLt
          · intro i
            show 0 ≤ (heapGet (l.Fill oid b.heap).2.2 i).Size
            exact F.nonneg i (hw.nonneg i)
          · intro i r hq2
            by_cases hio : i = oid
            · subst hio
              rw [hnone2] at hq2
              exact Option.noConfusion hq2
            · by_cases hil : i ∈ l.Orders
              · by_cases hil2 : i ∈ (l.Fill oid b.heap).2.1.Orders
                · rw [hnil] at hil2
                  exact absurd hil2 (List.not_mem_nil i)
                · rw [F.removedNone i hil hil2] at hq2
                  exact Option.noConfusion hq2
              · rw [F.untouched i hil hio] at hq2 ⊢
                obtain ⟨lr, hlr, hlrq, hlri⟩ := hw.resting i r hq2
                rcases Bool.eq_false_or_eq_true (heapGet b.heap i).Bid with hbid2 | hbid2
                · rw [hbid2] at hlr ⊢
                  simp only [if_true] at hlr ⊢
                  by_cases hlrp : lr.Price = q
                  · have hle : lr = l :=
                      List.inj_on_of_nodup_map hw.bidsNodup hlr hl (by rw [hlrp, hlq])
                    exact absurd (hle ▸ hlri) hil
                  · refine ⟨lr, gperm.mem_iff.mpr ?_, hlrq, hlri⟩
                    rw [hxs] at hlr
                    rcases List.mem_append.mp hlr with h1 | h1
                    · exact List.mem_append_left _ h1
                    · rcases List.mem_cons.mp h1 with rfl | h1
                      · exact absurd hlq hlrp
                      · exact List.mem_append_right _ h1
                · rw [hbid2] at hlr ⊢
                  simp only [Bool.false_eq_true, if_false] at hlr ⊢
                  exact ⟨lr, hlr, hlrq, hlri⟩
        · have hstep : (marketLoop oid true (q :: ps) b).2
              = (marketLoop oid true ps
                  { b with
                    bids := updateLimit b.bids q (l.Fill oid b.heap).2.1,
                    heap := (l.Fill oid b.heap).2.2 }).2 := by
            simp [marketLoop, hf, hnil]
          rw [hstep]
          refine ih _ ⟨fun y hy => hAsks y hy, ?_, hw.asksNodup, ?_, ?_, ?_, ?_, ?_⟩ hnn2 hnone2
          · intro y hy
            rcases mem_updateLimit hy with rfl | ⟨hyb, hyp⟩
            · exact hL2
            · exact hOther y hyb hyp
          · show ((updateLimit b.bids q (l.Fill oid b.heap).2.1).map Limit.Price).Nodup
            rw [updateLimit_map_price (F.price.trans hlq)]
            exact hw.bidsNodup
          · show ((l.Fill oid b.heap).2.2.map Order.ID).Nodup
            rw [F.idsEq]
            exact hw.idNodup
          · exact heapLt_of_map_ID F.idsEq hw.heapLt
          · intro i
            show 0 ≤ (heapGet (l.Fill oid b.heap).2.2 i).Size
            exact F.nonneg i (hw.nonneg i)
          · intro i r hq2
            by_cases hio : i = oid
            · subst hio
              rw [hnone2] at hq2
              exact Option.noConfusion hq2
            · by_cases hil : i ∈ l.Orders
              · by_cases hil2 : i ∈ (l.Fill oid b.heap).2.1.Orders
                · rw [(F.fields i).2.1, hlw.sideOk i hil]
                  simp only [if_true]
                  refine ⟨(l.Fill oid b.heap).2.1, ?_, ?_, hil2⟩
                  · rw [hupd]
                    exact List.mem_append_right _ (List.mem_cons_self _ _)
                  · exact (Option.some.inj (hq2.symm.trans (hL2.backref i hil2))).symm
                · rw [F.removedNone i hil hil2] at hq2
                  exact Option.noConfusion hq2
              · rw [F.untouched i hil hio] at hq2 ⊢
                obtain ⟨lr, hlr, hlrq, hlri⟩ := hw.resting i r hq2
                rcases Bool.eq_false_or_eq_true (heapGet b.heap i).Bid with hbid2 | hbid2
                · rw [hbid2] at hlr ⊢
                  simp only [if_true] at hlr ⊢
                  by_cases hlrp : lr.Price = q
                  · have hle : lr = l :=
                      List.inj_on_of_nodup_map hw.bidsNodup hlr hl (by rw [hlrp, hlq])
                    exact absurd (hle ▸ hlri) hil
                  · exact ⟨lr, mem_updateLimit_ne hlr hlrp, hlrq, hlri⟩
                · rw [hbid2] at hlr ⊢
                  simp only [Bool.false_eq_true, if_false] at hlr ⊢
                  exact ⟨lr, hlr, hlrq, hlri⟩
    | false =>
      cases hf : findLimit b.asks q with
      | none =>
        have hstep : marketLoop oid false (q :: ps) b = marketLoop oid false ps b := by
          simp [marketLoop, hf]
        rw [hstep]
        exact ih b hw hnn hnone
      | some l =>
        have hf2 : b.asks.find? (fun y => decide (y.Price = q)) = some l := hf
        have hl : l ∈ b.asks := List.mem_of_find?_eq_some hf2
        have hlq : l.Price = q := by simpa using List.find?_some hf2
        have hlw := hw.asksWF l hl
        have hno : oid ∉ l.Orders := by
          intro hc
          have hbr := hlw.backref oid hc
          rw [hnone] at hbr
          exact Option.noConfusion hbr
        obtain F := Fill_spec l oid b.heap hlw.volEq hlw.nodup hlw.pos hno hnn
        have hfree : ∀ y, y ∈ b.asks → y.Price ≠ q → ∀ i ∈ y.Orders,
            i ∉ l.Orders ∧ i ≠ oid := by
          intro y hy hyp i hi
          have hbr := (hw.asksWF y hy).backref i hi
          constructor
          · intro hc
            have hbr2 := hlw.backref i hc
            rw [hbr] at hbr2
            exact hyp ((Option.some.inj hbr2).trans hlq)
          · intro hc
            subst hc
            rw [hnone] at hbr
            exact Option.noConfusion hbr
        have hfreeB : ∀ y, y ∈ b.bids → ∀ i ∈ y.Orders, i ∉ l.Orders ∧ i ≠ oid := by
          intro y hy i hi
          have hbr := (hw.bidsWF y hy).backref i hi
          have hso := (hw.bidsWF y hy).sideOk i hi
          constructor
          · intro hc
            have hso2 := hlw.sideOk i hc
            rw [hso] at hso2
            exact Bool.noConfusion hso2
          · intro hc
            subst hc
            rw [hnone] at hbr
            exact Option.noConfusion hbr
        have hOther : ∀ y, y ∈ b.asks → y.Price ≠ q →
            LimitWF (l.Fill oid b.heap).2.2 false y := by
          intro y hy hyp
          refine LimitWF_congr (hw.asksWF y hy) fun i hi => ?_
          obtain ⟨h1, h2⟩ := hfree y hy hyp i hi
          exact F.untouched i h1 h2
        have hBids : ∀ y, y ∈ b.bids → LimitWF (l.Fill oid b.heap).2.2 true y := by
          intro y hy
          refine LimitWF_congr (hw.bidsWF y hy) fun i hi => ?_
          obtain ⟨h1, h2⟩ := hfreeB y hy i hi
          exact F.untouched i h1 h2
        have hL2 : LimitWF (l.Fill oid b.heap).2.2 false (l.Fill oid b.heap).2.1 := by
          refine ⟨F.volEq, F.nodup, F.pos, ?_, ?_⟩
          · intro i hi
            rw [(F.fields i).2.1]
            exact hlw.sideOk i (F.ordSub i hi)
          · intro i hi
            rw [F.backrefKeep i hi, F.price]
            exact hlw.backref i (F.ordSub i hi)
        have hnn2 : 0 ≤ (heapGet (l.Fill oid b.heap).2.2 oid).Size := F.oidNonneg
        have hnone2 : (heapGet (l.Fill oid b.heap).2.2 oid).LimitPrice = none := by
          rw [F.oidBackref]
          exact hnone
        obtain ⟨s, t, hxs, hsne, htne⟩ := exists_price_decomp hl hw.asksNodup
        have hsne2 : ∀ y ∈ s, y.Price ≠ q := fun y hy => hlq ▸ hsne y hy
        have htne2 : ∀ y ∈ t, y.Price ≠ q := fun y hy => hlq ▸ htne y hy
        have hupd : updateLimit b.asks q (l.Fill oid b.heap).2.1
            = s ++ (l.Fill oid b.heap).2.1 :: t := by
          rw [hxs]
          exact updateLimit_decomp hsne2 htne2 hlq
        by_cases hnil : (l.Fill oid b.heap).2.1.Orders = []
        · have hstep : (marketLoop oid false (q :: ps) b).2
              = (marketLoop oid false ps
                  { b with
                    asks := goSwapRemove (fun y => decide (y.Price = q))
                      (updateLimit b.asks q (l.Fill oid b.heap).2.1),
                    heap := (l.Fill oid b.heap).2.2 }).2 := by
            simp [marketLoop, hf, hnil, Orderbook.DeleteLimit]
          rw [hstep]
          have gperm : List.Perm (goSwapRemove (fun y => decide (y.Price = q))
              (updateLimit b.asks q (l.Fill oid b.heap).2.1)) (s ++ t) := by
            rw [hupd]
            exact goSwapRemoveLimit_perm t hsne2 (F.price.trans hlq)
          have hmem_st : ∀ y, y ∈ s ++ t → y ∈ b.asks ∧ y.Price ≠ q := by
            intro y hy
            rcases List.mem_append.mp hy with hy | hy
            · exact ⟨by rw [hxs]; exact List.mem_append_left _ hy, hsne2 y hy⟩
            · exact ⟨by rw [hxs]; exact List.mem_append_right _ (List.mem_cons_of_mem _ hy),
                htne2 y hy⟩
          refine ih _ ⟨?_, fun y hy => hBids y hy, ?_, hw.bidsNodup, ?_, ?_, ?_, ?_⟩ hnn2 hnone2
          · intro y hy
            obtain ⟨hyb, hyp⟩ := hmem_st y (gperm.mem_iff.mp hy)
            exact hOther y hyb hyp
          · refine ((gperm.map Limit.Price).nodup_iff).mpr ?_
            have hall : (List.map Limit.Price (s ++ l :: t)).Nodup := by
              rw [← hxs]
              exact hw.asksNodup
            have hmid : (l.Price :: (List.map Limit.Price s
                ++ List.map Limit.Price t)).Nodup := by
              rw [← List.nodup_middle]
              simpa using hall
            have hst := (List.nodup_cons.mp hmid).2
            simpa using hst
          · show ((l.Fill oid b.heap).2.2.map Order.ID).Nodup
            rw [F.idsEq]
            exact hw.idNodup
          · exact heapLt_of_map_ID F.idsEq hw.heapLt
          · intro i
            show 0 ≤ (heapGet (l.Fill oid b.heap).2.2 i).Size
            exact F.nonneg i (hw.nonneg i)
          · intro i r hq2
            by_cases hio : i = oid
            · subst hio
              rw [hnone2] at hq2
              exact Option.noConfusion hq2
            · by_cases hil : i ∈ l.Orders
              · by_cases hil2 : i ∈ (l.Fill oid b.heap).2.1.Orders
                · rw [hnil] at hil2
                  exact absurd hil2 (List.not_mem_nil i)
                · rw [F.removedNone i hil hil2] at hq2
                  exact Option.noConfusion hq2
              · rw [F.untouched i hil hio] at hq2 ⊢
                obtain ⟨lr, hlr, hlrq, hlri⟩ := hw.resting i r hq2
                rcases Bool.eq_false_or_eq_true (heapGet b.heap i).Bid with hbid2 | hbid2
                · rw [hbid2] at hlr ⊢
                  simp only [if_true] at hlr ⊢
                  exact ⟨lr, hlr, hlrq, hlri⟩
                · rw [hbid2] at hlr ⊢
                  simp only [Bool.false_eq_true, if_false] at hlr ⊢
                  by_cases hlrp : lr.Price = q
                  · have hle : lr = l :=
                      List.inj_on_of_nodup_map hw.asksNodup hlr hl (by rw [hlrp, hlq])
                    exact absurd (hle ▸ hlri) hil
                  · refine ⟨lr, gperm.mem_iff.mpr ?_, hlrq, hlri⟩
                    rw [hxs] at hlr
                    rcases List.mem_append.mp hlr with h1 | h1
                    · exact List.mem_append_left _ h1
                    · rcases List.mem_cons.mp h1 with rfl | h1
                      · exact absurd hlq hlrp
                      · exact List.mem_append_right _ h1
        · have hstep : (marketLoop oid false (q :: ps) b).2
              = (marketLoop oid false ps
                  { b with
                    asks := updateLimit b.asks q (l.Fill oid b.heap).2.1,
                    heap := (l.Fill oid b.heap).2.2 }).2 := by
            simp [marketLoop, hf, hnil]
          rw [hstep]
          refine ih _ ⟨?_, fun y hy => hBids y hy, ?_, hw.bidsNodup, ?_, ?_, ?_, ?_⟩ hnn2 hnone2
          · intro y hy
            rcases mem_updateLimit hy with rfl | ⟨hyb, hyp⟩
            · exact hL2
            · exact hOther y hyb hyp
          · show ((updateLimit b.asks q (l.Fill oid b.heap).2.1).map Limit.Price).Nodup
            rw [updateLimit_map_price (F.price.trans hlq)]
            exact hw.asksNodup
          · show ((l.Fill oid b.heap).2.2.map Order.ID).Nodup
            rw [F.idsEq]
            exact hw.idNodup
          · exact heapLt_of_map_ID F.idsEq hw.heapLt
          · intro i
            show 0 ≤ (heapGet (l.Fill oid b.heap).2.2 i).Size
            exact F.nonneg i (hw.nonneg i)
          · intro i r hq2
            by_cases hio : i = oid
            · subst hio
              rw [hnone2] at hq2
              exact Option.noConfusion hq2
            · by_cases hil : i ∈ l.Orders
              · by_cases hil2 : i ∈ (l.Fill oid b.heap).2.1.Orders
                · rw [(F.fields i).2.1, hlw.sideOk i hil]
                  simp only [Bool.false_eq_true, if_false]
                  refine ⟨(l.Fill oid b.heap).2.1, ?_, ?_, hil2⟩
                  · rw [hupd]
                    exact List.mem_append_right _ (List.mem_cons_self _ _)
                  · exact (Option.some.inj (hq2.symm.trans (hL2.backref i hil2))).symm
                · rw [F.removedNone i hil hil2] at hq2
                  exact Option.noConfusion hq2
              · rw [F.untouched i hil hio] at hq2 ⊢
                obtain ⟨lr, hlr, hlrq, hlri⟩ := hw.resting i r hq2
                rcases Bool.eq_false_or_eq_true (heapGet b.heap i).Bid with hbid2 | hbid2
                · rw [hbid2] at hlr ⊢
                  simp only [if_true] at hlr ⊢
                  exact ⟨lr, hlr, hlrq, hlri⟩
                · rw [hbid2] at hlr ⊢
                  simp only [Bool.false_eq_true, if_false] at hlr ⊢
                  by_cases hlrp : lr.Price = q
                  · have hle : lr = l :=
                      List.inj_on_of_nodup_map hw.asksNodup hlr hl (by rw [hlrp, hlq])
                    exact absurd (hle ▸ hlri) hil
                  · exact ⟨lr, mem_updateLimit_ne hlr hlrp, hlrq, hlri⟩

theorem placeMarketStep_wf {b b' : Orderbook} (hw : BookWF b) {bid : Bool} {size : ℤ}
    {ms : List Match} (hpos : 0 ≤ size)
    (hok : b.placeMarketStep bid size = .ok ms b') : BookWF b' := by
  have hw1 : BookWF (b.NewOrder bid size).2 := newOrder_wf hw bid hpos
  have ho := newOrder_heapGet_fresh b bid size
  cases bid with
  | true =>
    have hred : b.placeMarketStep true size
        = if (b.NewOrder true size).2.AskTotalVolume < size then
            MarketResult.insufficientVolumeAbort
          else
            MarketResult.ok
              (marketLoop b.nextId false
                (((b.NewOrder true size).2.Asks).1.map Limit.Price)
                ((b.NewOrder true size).2.Asks).2).1
              (marketLoop b.nextId false
                (((b.NewOrder true size).2.Asks).1.map Limit.Price)
                ((b.NewOrder true size).2.Asks).2).2 := by
      have hfst : (b.NewOrder true size).1 = b.nextId := rfl
      simp [Orderbook.placeMarketStep, Orderbook.PlaceMarkerOrder, hfst, ho]
    rw [hred] at hok
    by_cases hv : (b.NewOrder true size).2.AskTotalVolume < size
    · rw [if_pos hv] at hok
      exact absurd hok (by simp)
    · rw [if_neg hv] at hok
      simp only [MarketResult.ok.injEq] at hok
      obtain ⟨-, hb2⟩ := hok
      subst hb2
      have hws : BookWF ((b.NewOrder true size).2.Asks).2 := sortAsks_wf hw1
      have hnn : 0 ≤ (heapGet ((b.NewOrder true size).2.Asks).2.heap b.nextId).Size := by
        show 0 ≤ (heapGet (b.NewOrder true size).2.heap b.nextId).Size
        rw [ho]
        exact hpos
      have hnone : (heapGet ((b.NewOrder true size).2.Asks).2.heap b.nextId).LimitPrice
          = none := by
        show (heapGet (b.NewOrder true size).2.heap b.nextId).LimitPrice = none
        rw [ho]
      exact (marketLoop_inv b.nextId false _ _ hws hnn hnone).1
  | false =>
    have hred : b.placeMarketStep false size
        = if (b.NewOrder false size).2.BidTotalVolume < size then
            MarketResult.insufficientVolumeAbort
          else
            MarketResult.ok
              (marketLoop b.nextId true
                (((b.NewOrder false size).2.Bids).1.map Limit.Price)
                ((b.NewOrder false size).2.Bids).2).1
              (marketLoop b.nextId true
                (((b.NewOrder false size).2.Bids).1.map Limit.Price)
                ((b.NewOrder false size).2.Bids).2).2 := by
      have hfst : (b.NewOrder false size).1 = b.nextId := rfl
      simp [Orderbook.placeMarketStep, Orderbook.PlaceMarkerOrder, hfst, ho]
    rw [hred] at hok
    by_cases hv : (b.NewOrder false size).2.BidTotalVolume < size
    · rw [if_pos hv] at hok
      exact absurd hok (by simp)
    · rw [if_neg hv] at hok
      simp only [MarketResult.ok.injEq] at hok
      obtain ⟨-, hb2⟩ := hok
      subst hb2
      have hws : BookWF ((b.NewOrder false size).2.Bids).2 := sortBids_wf hw1
      have hnn : 0 ≤ (heapGet ((b.NewOrder false size).2.Bids).2.heap b.nextId).Size := by
        show 0 ≤ (heapGet (b.NewOrder false size).2.heap b.nextId).Size
        rw [ho]
        exact hpos
      have hnone : (heapGet ((b.NewOrder false size).2.Bids).2.heap b.nextId).LimitPrice
          = none := by
        show (heapGet (b.NewOrder false size).2.heap b.nextId).LimitPrice = none
        rw [ho]
      exact (marketLoop_inv b.nextId true _ _ hws hnn hnone).1

theorem NewOrderbook_wf : BookWF NewOrderbook := by
  refine ⟨?_, ?_, ?_, ?_, ?_, ?_, ?_, ?_⟩
  · intro l hl
    exact absurd hl (List.not_mem_nil l)
  · intro l hl
    exact absurd hl (List.not_mem_nil l)
  · simp [NewOrderbook]
  · simp [NewOrderbook]
  · simp [NewOrderbook]
  · intro o ho
    exact absurd ho (List.not_mem_nil o)
  · intro i
    simp [NewOrderbook, heapGet]
  · intro i p hp
    simp [NewOrderbook, heapGet] at hp

/-- Every book reachable through the engine interface is well formed. -/
theorem reachable_wf {b : Orderbook} (hr : Reachable b) : BookWF b := by
  induction hr with
  | init => exact NewOrderbook_wf
  | placeLimit bid price size hpos hrec ih => exact placeLimitStep_wf ih bid price size hpos
  | placeMarket bid size ms hpos hrec heq ih => exact placeMarketStep_wf ih (le_of_lt hpos) heq
  | cancel oid hrec hmem hlp ih =>
    obtain ⟨p, hp⟩ := Option.ne_none_iff_exists'.mp hlp
    exact cancelOrder_wf ih hp

theorem pairwise_gt_of_ge_nodup {xs : List Limit}
    (hge : xs.Pairwise fun a b => b.Price ≤ a.Price)
    (hnd : (xs.map Limit.Price).Nodup) :
    xs.Pairwise fun a b => b.Price < a.Price := by
  induction xs with
  | nil => simp
  | cons x ys ih =>
    rcases List.pairwise_cons.mp hge with ⟨hx, hys⟩
    have hnd2 : (x.Price :: ys.map Limit.Price).Nodup := by simpa using hnd
    rcases List.nodup_cons.mp hnd2 with ⟨hxm, hndt⟩
    refine List.pairwise_cons.mpr ⟨?_, ih hys hndt⟩
    intro z hz
    refine lt_of_le_of_ne (hx z hz) ?_
    intro he
    refine hxm ?_
    rw [← he]
    exact List.mem_map_of_mem Limit.Price hz

/-- Claim C5: in every reachable book state, every price level on either
side caches in TotalVolume exactly the sum of the remaining sizes of its
resting orders, so the invariant holds after every engine operation. -/
theorem volume_conservation_reachable {b : Orderbook} (hr : Reachable b) :
    ∀ l : Limit, l ∈ b.asks ∨ l ∈ b.bids →
      l.TotalVolume = sumSizes b.heap l.Orders := by
  intro l hl
  rcases hl with hl | hl
  · exact ((reachable_wf hr).asksWF l hl).volEq
  · exact ((reachable_wf hr).bidsWF l hl).volEq

theorem volume_conservation_reachable_witness :
    (⟨100, [0], 5⟩ : Limit).TotalVolume
      = sumSizes (NewOrderbook.placeLimitStep true 100 5).heap
          (⟨100, [0], 5⟩ : Limit).Orders :=
  volume_conservation_reachable
    (Reachable.placeLimit true 100 5 (by norm_num) Reachable.init)
    ⟨100, [0], 5⟩ (Or.inr (by decide))

/-- Claim C8: in every reachable book state, the level sequence returned
by the best-price-first ask enumeration Asks is strictly ascending by
price and the sequence returned by Bids is strictly descending by
price. -/
theorem asks_bids_strictly_sorted {b : Orderbook} (hr : Reachable b) :
    (b.Asks).1.Pairwise (fun x y => x.Price < y.Price)
    ∧ (b.Bids).1.Pairwise (fun x y => y.Price < x.Price) := by
  have hw := reachable_wf hr
  constructor
  · show (sortAsksList b.asks).Pairwise fun x y => x.Price < y.Price
    refine pairwise_lt_of_le_nodup (sortAsksList_sorted b.asks) ?_
    exact (((sortAsksList_perm b.asks).map Limit.Price).nodup_iff).mpr hw.asksNodup
  · show (sortBidsList b.bids).Pairwise fun x y => y.Price < x.Price
    refine pairwise_gt_of_ge_nodup (sortBidsList_sorted b.bids) ?_
    exact (((sortBidsList_perm b.bids).map Limit.Price).nodup_iff).mpr hw.bidsNodup

theorem asks_bids_strictly_sorted_witness :
    (((NewOrderbook.placeLimitStep false 200 5).placeLimitStep false 100 7).Asks).1.Pairwise
        (fun x y => x.Price < y.Price)
    ∧ (((NewOrderbook.placeLimitStep false 200 5).placeLimitStep false 100 7).Bids).1.Pairwise
        (fun x y => y.Price < x.Price) :=
  asks_bids_strictly_sorted
    (Reachable.placeLimit false 100 7 (by norm_num)
      (Reachable.placeLimit false 200 5 (by norm_num) Reachable.init))

/-- Claim C9: in every reachable book state no remaining size is
negative, and every match produced by fillOrder carries SizeFilled equal
to the minimum of the two participants' remaining sizes at the time of
the fill, hence never exceeding either one. -/
theorem no_negative_sizes_and_fill_min :
    (∀ b : Orderbook, Reachable b → ∀ o ∈ b.heap, 0 ≤ o.Size)
    ∧ (∀ (l : Limit) (aId bId : Nat) (h : Heap),
        (l.fillOrder aId bId h).1.SizeFilled
          = min (heapGet h aId).Size (heapGet h bId).Size
        ∧ (l.fillOrder aId bId h).1.SizeFilled ≤ (heapGet h aId).Size
        ∧ (l.fillOrder aId bId h).1.SizeFilled ≤ (heapGet h bId).Size) := by
  constructor
  · intro b hr o ho
    have hw := reachable_wf hr
    have hg : heapGet b.heap o.ID = o := heapGet_of_mem hw.idNodup ho
    have hn := hw.nonneg o.ID
    rw [hg] at hn
    exact hn
  · intro l aId bId h
    have hmin : (l.fillOrder aId bId h).1.SizeFilled
        = min (heapGet h aId).Size (heapGet h bId).Size := by
      simp only [Limit.fillOrder]
      by_cases hle : (heapGet h bId).Size ≤ (heapGet h aId).Size
      · rw [if_pos hle]
        exact (min_eq_right hle).symm
      · rw [if_neg hle]
        exact (min_eq_left (le_of_lt (lt_of_not_le hle))).symm
    exact ⟨hmin, hmin ▸ min_le_left _ _, hmin ▸ min_le_right _ _⟩

theorem no_negative_sizes_and_fill_min_witness :
    0 ≤ (⟨0, 5, true, 0, some 100⟩ : Order).Size :=
  no_negative_sizes_and_fill_min.1 (NewOrderbook.placeLimitStep true 100 5)
    (Reachable.placeLimit true 100 5 (by norm_num) Reachable.init)
    ⟨0, 5, true, 0, some 100⟩ (by decide)

end OB
